import Mathlib

/-! Stage 1 box counting: the solver and the read / solve / aggregate pipeline.

A shallow embedding of `src/stage1.go`.

* Go's `int` is taken at 64 bits; `INF` is `int(^uint(0) >> 1)`, the largest
  value of that type.  A solver input is an `Int` in `0 .. INF`.
* Go's `/` and `%` truncate towards zero: they are `Int.tdiv` and `Int.tmod`.
* Inside `minBoxesForN` every intermediate value lies between `0` and `N`, so
  no operation wraps there; the aggregator's accumulator can exceed the range
  and is modelled with the explicit wrap `wrapInt`.
-/

namespace Stage1

/-! ## The solver (`minBoxesForN`, lines 22-85) -/

/-- The constant `INF = int(^uint(0) >> 1)` of line 30 on a 64-bit platform. -/
def INF : Int := 9223372036854775807

/-- The closed-form choice of `c` (lines 53-62):
`maxC := R / 16`, `wantMod := R % 5`, `c := maxC - ((maxC-wantMod+5)%5)`. -/
def closedC (R : Int) : Int :=
  let maxC := Int.tdiv R 16
  let wantMod := Int.tmod R 5
  maxC - Int.tmod (maxC - wantMod + 5) 5

/-- Lines 53-76 of the inner loop body for given `a`, `b` and remainder `R`:
`none` is one of the two `continue` statements, `some totalBoxes` is the
candidate `a + b + c + d`. -/
def candidate (a b R : Int) : Option Int :=
  let c := closedC R
  if c < 0 then none
  else
    let rest := R - 16 * c
    if rest < 0 ∨ Int.tmod rest 5 ≠ 0 then none
    else
      let d := Int.tdiv rest 5
      some (a + b + c + d)

/-- Lines 77-80: `if totalBoxes < best { best = totalBoxes; found = true }`
on the pair `(best, found)`. -/
def update (st : Int × Bool) (totalBoxes : Int) : Int × Bool :=
  if totalBoxes < st.1 then (totalBoxes, true) else st

/-- The inner loop `for b := 0; b <= maxB; b++` (lines 42-81) from the current
`b`, on the pair `(best, found)`.  The first argument bounds the number of
iterations; `loopA` passes `maxB + 1`, the exact trip count. -/
def loopB (a R1 maxB : Int) : Nat → Int → Int × Bool → Int × Bool
  | 0, _, st => st
  | fuel + 1, b, st =>
    if b ≤ maxB then
      let R := R1 - 42 * b
      if R < 0 then st
      else
        match candidate a b R with
        | none => loopB a R1 maxB fuel (b + 1) st
        | some totalBoxes => loopB a R1 maxB fuel (b + 1) (update st totalBoxes)
    else st

/-- The outer loop `for a := 0; a <= maxA; a++` (lines 35-82) from the current
`a`.  The first argument bounds the number of iterations; `minBoxesForN`
passes `maxA + 1`, the exact trip count. -/
def loopA (N maxA : Int) : Nat → Int → Int × Bool → Int × Bool
  | 0, _, st => st
  | fuel + 1, a, st =>
    if a ≤ maxA then
      let R1 := N - 59 * a
      if R1 < 0 then st
      else
        let maxB := Int.tdiv R1 42
        loopA N maxA fuel (a + 1) (loopB a R1 maxB (maxB + 1).toNat 0 st)
    else st

/-- The function `minBoxesForN` (lines 22-85), returning `(best, found)`. -/
def minBoxesForN (N : Int) : Int × Bool :=
  if N < 0 then (0, false)
  else if N = 0 then (0, true)
  else
    let maxA := Int.tdiv N 59
    loopA N maxA (maxA + 1).toNat 0 (INF, false)

/-- A decomposition of `N` into `a` parts of 59, `b` of 42, `c` of 16 and `d`
of 5, all counts non-negative. -/
def Decomp (N a b c d : Int) : Prop :=
  0 ≤ a ∧ 0 ≤ b ∧ 0 ≤ c ∧ 0 ≤ d ∧ 59 * a + 42 * b + 16 * c + 5 * d = N

instance (N a b c d : Int) : Decidable (Decomp N a b c d) := by
  unfold Decomp
  infer_instance

/-- The loop invariant of `minBoxesForN` on `(best, found)`: nothing found
yet means `best` is still `INF`, and a found `best` is the part count of a
decomposition of `N`. -/
def SolInv (N : Int) (st : Int × Bool) : Prop :=
  (st.2 = false → st.1 = INF) ∧
  (st.2 = true → ∃ a b c d : Int, Decomp N a b c d ∧ a + b + c + d = st.1)

/-- The pair `(best, found)` has found something with at most `t` parts. -/
def Below (st : Int × Bool) (t : Int) : Prop := st.2 = true ∧ st.1 ≤ t

/-! ### The dynamic-programming reference of the specification -/

/-- The denominations `var sizes = []int{5, 16, 42, 59}` (line 13). -/
def sizes : List Nat := [5, 16, 42, 59]

/-- Minimum of two optional counts, `none` meaning "no decomposition". -/
def optMin : Option Nat → Option Nat → Option Nat
  | none, y => y
  | some x, none => some x
  | some x, some y => some (min x y)

/-- The table entry for target `n + 1`, from the table `t` whose entry `i` is
the entry of target `n - i`: one more part than the best entry among the
targets `n + 1 - s`, `s` a denomination. -/
def dpEntry (n : Nat) (t : List (Option Nat)) : Option Nat :=
  sizes.foldl
    (fun acc s => if s ≤ n + 1 then optMin acc ((t[s - 1]?).join.map (· + 1)) else acc)
    none

/-- The table of the reference, newest entry first: `dpTable n` lists the
entries of the targets `n, n - 1, ..., 0`. -/
def dpTable : Nat → List (Option Nat)
  | 0 => [some 0]
  | n + 1 => dpEntry n (dpTable n) :: dpTable n

/-- The reference of the specification ("a brute-force/dynamic-programming
reference computing true minimal part count over {5,16,42,59}"): the minimal
part count of `n`, or `none` when `n` has no decomposition. -/
def dpReference (n : Nat) : Option Nat := (dpTable n)[0]?.join

/-- Some decomposition of `m` over the naturals has exactly `k` parts. -/
def Cnt (m k : Nat) : Prop :=
  ∃ a b c d : Nat, 59 * a + 42 * b + 16 * c + 5 * d = m ∧ a + b + c + d = k

/-- The optional count `o` is the least element of `P`, `none` when `P` is
empty. -/
def IsOptOver (P : Nat → Prop) : Option Nat → Prop
  | none => ∀ k, ¬ P k
  | some k => P k ∧ ∀ j, P j → k ≤ j

/-! ## The pipeline (`job`, `result`, `worker`, `main`, lines 87-179)

The input of `main` is the list of lines that the scanner of line 131
delivers (each without its line terminator), the scanner ending without an
error.  A line is a `String`, so the model covers inputs that are valid UTF-8.
The counters `lineNo`, `sent` and `i` are naturals: they count lines of a
file and stay far below `INF`. -/

/-- The type `job` (lines 87-90). -/
structure job where
  lineNo : Nat
  N : Int
  deriving DecidableEq, Repr

/-- The type `result` (lines 92-96). -/
structure result where
  lineNo : Nat
  minBoxes : Int
  ok : Bool
  deriving DecidableEq, Repr

/-- The body of the loop of `worker` (lines 101-102): the result sent for a
received job. -/
def workerBody (j : job) : result :=
  let r := minBoxesForN j.N
  { lineNo := j.lineNo, minBoxes := r.1, ok := r.2 }

/-- What a run prints before the process ends, with its exit status:
`total t` is `Total boxes: t` with status 0 (line 176); the other three are
the diagnostics of lines 146, 150 and 170, each followed by `os.Exit(1)`. -/
inductive Outcome where
  | total (totalBoxes : Int)
  | invalidLine (lineNo : Nat) (line : String)
  | outOfRange (lineNo : Nat) (n64 : Int)
  | infeasible (lineNo : Nat)
  deriving DecidableEq, Repr

/-- Go's `unicode.IsSpace`: the Latin-1 spaces `\t \n \v \f \r`, space,
U+0085, U+00A0, and the other code points with the White_Space property. -/
def isSpace (c : Char) : Bool :=
  let n := c.toNat
  (9 ≤ n && n ≤ 13) || n == 32 || n == 133 || n == 160 || n == 5760 ||
    (8192 ≤ n && n ≤ 8202) || n == 8232 || n == 8233 || n == 8239 || n == 8287 ||
    n == 12288

/-- Go's `strings.TrimSpace`: the string without its leading and trailing
white space. -/
def trimSpace (s : String) : String :=
  ⟨((s.data.dropWhile isSpace).reverse.dropWhile isSpace).reverse⟩

/-- The digit loop of Go's `strconv.ParseUint(s, 10, 64)`: the value of a
string of decimal digits after the accumulated `acc`, `none` at any other
character. -/
def parseDigits : List Char → Nat → Option Nat
  | [], acc => some acc
  | c :: cs, acc =>
    if 48 ≤ c.toNat ∧ c.toNat ≤ 57 then parseDigits cs (acc * 10 + (c.toNat - 48))
    else none

/-- Go's `strconv.ParseInt(s, 10, 64)`: an optional sign followed by at least
one decimal digit, with a value in `-2^63 .. 2^63 - 1`; `none` is the error
return (syntax or range). -/
def parseInt (s : String) : Option Int :=
  match s.data with
  | [] => none
  | c :: cs =>
    let neg := c == '-'
    let ds := if c == '+' || c == '-' then cs else c :: cs
    match ds with
    | [] => none
    | d :: ds' =>
      match parseDigits (d :: ds') 0 with
      | none => none
      | some un =>
        if !neg && un ≥ 9223372036854775808 then none
        else if neg && un > 9223372036854775808 then none
        else some (if neg then -(un : Int) else (un : Int))

/-- What the reader does with one line. -/
inductive LineAct where
  | skip
  | abort (o : Outcome)
  | submit (j : job)
  deriving DecidableEq, Repr

/-- The body of the reader loop (lines 139-155) for the line numbered
`lineNo` (the counter after `lineNo++`): a blank line is skipped, a line that
does not parse or is out of range ends the process with a diagnostic, any
other line becomes a job. -/
def readLine (lineNo : Nat) (raw : String) : LineAct :=
  let line := trimSpace raw
  if line = "" then LineAct.skip
  else
    match parseInt line with
    | none => LineAct.abort (Outcome.invalidLine lineNo line)
    | some n64 =>
      if n64 < 0 ∨ n64 > INF then LineAct.abort (Outcome.outOfRange lineNo n64)
      else LineAct.submit { lineNo := lineNo, N := n64 }

/-- The reader loop (lines 137-157) from the counter `lineNo`, with `sentJobs`
the jobs sent so far and `sent` their number: either the diagnostic on which
the process ends, or the jobs sent when the input is exhausted, in the order
of sending. -/
def readerLoop : Nat → List job → List String → Except Outcome (List job)
  | _, sentJobs, [] => Except.ok sentJobs
  | lineNo, sentJobs, l :: rest =>
    match readLine (lineNo + 1) l with
    | LineAct.skip => readerLoop (lineNo + 1) sentJobs rest
    | LineAct.abort o => Except.error o
    | LineAct.submit j => readerLoop (lineNo + 1) (sentJobs ++ [j]) rest

/-- The conversion of a sum to Go's 64-bit `int`: the value in
`-2^63 .. 2^63 - 1` that differs from `x` by a multiple of `2^64`. -/
def wrapInt (x : Int) : Int :=
  (x + 9223372036854775808) % 18446744073709551616 - 9223372036854775808

/-- The aggregator loop (lines 165-176) on the results in the order in which
they are received, from the current `totalBoxes`. -/
def aggLoop : Int → List result → Outcome
  | totalBoxes, [] => Outcome.total totalBoxes
  | totalBoxes, r :: rs =>
    if r.ok then aggLoop (wrapInt (totalBoxes + r.minBoxes)) rs
    else Outcome.infeasible r.lineNo

/-- The value of `totalBoxes` after the results `rs` have been added. -/
def aggTotal (rs : List result) : Int :=
  rs.foldl (fun t r => wrapInt (t + r.minBoxes)) 0

/-- The run in which the results reach the aggregator in the order of
submission. -/
def runInOrder (lines : List String) : Outcome :=
  match readerLoop 0 [] lines with
  | Except.error o => o
  | Except.ok js => aggLoop 0 (js.map workerBody)

/-! ### The concurrent pipeline as a step relation -/

/-- Capacity of the channel `jobs` (line 123). -/
def jobsCap : Nat := 4096

/-- Capacity of the channel `results` (line 124). -/
def resultsCap : Nat := 4096

/-- Where a worker goroutine stands (lines 99-104): waiting to receive a job,
holding the result of the job it received and waiting to send it, or returned
from `worker` because `jobs` was closed and empty. -/
inductive WorkerSt where
  | idle
  | holding (r : result)
  | returned
  deriving DecidableEq, Repr

/-- Where the main goroutine stands: in the reader loop (lines 137-157) with
the lines not yet scanned and the counters `lineNo` and `sent`; in the
aggregator loop (lines 164-174) with `i`, `sent` and `totalBoxes`; or exited,
with what it printed. -/
inductive MainSt where
  | reading (rest : List String) (lineNo sent : Nat)
  | aggregating (i sent : Nat) (totalBoxes : Int)
  | exited (o : Outcome)
  deriving DecidableEq, Repr

/-- A state of the running program: the main goroutine, the buffer of `jobs`
(oldest first) and whether it is closed, the workers, the buffer of `results`
(oldest first).  The last four fields record history and enable no step: the
jobs sent by the reader, the jobs received by workers, the results sent by
workers and the results received by the aggregator, each in order. -/
structure Pipeline where
  main : MainSt
  jobs : List job
  closed : Bool
  workers : List WorkerSt
  results : List result
  submitted : List job
  taken : List job
  emitted : List result
  consumed : List result

/-- The state after line 128: `numWorkers` workers started, nothing read. -/
def init (numWorkers : Nat) (lines : List String) : Pipeline :=
  { main := MainSt.reading lines 0 0, jobs := [], closed := false,
    workers := List.replicate numWorkers WorkerSt.idle, results := [],
    submitted := [], taken := [], emitted := [], consumed := [] }

/-- One step of one goroutine.  A send needs room in the channel's buffer, a
receive needs a buffered element; once the main goroutine has exited the
process is gone and nothing steps.  The relation has the steps of the
program's own goroutines only: the scanner is taken to deliver every line
(the `panic` of lines 158-160 on a scanner error, such as a line above the
buffer limit of line 132, is outside the model), and a state in which no
goroutine can step stays as it is (the Go runtime ends such a process with
`all goroutines are asleep - deadlock!`, which is not a step here). -/
inductive Step : Pipeline → Pipeline → Prop where
  /-- Lines 138-142: a blank line. -/
  | readSkip (l : String) (rest : List String) (lineNo sent : Nat) (js : List job) (cl : Bool)
      (ws : List WorkerSt) (rs : List result) (sub tk : List job) (em co : List result)
      (h : readLine (lineNo + 1) l = LineAct.skip) :
      Step ⟨MainSt.reading (l :: rest) lineNo sent, js, cl, ws, rs, sub, tk, em, co⟩
        ⟨MainSt.reading rest (lineNo + 1) sent, js, cl, ws, rs, sub, tk, em, co⟩
  /-- Lines 144-152: a line that does not parse or is out of range. -/
  | readAbort (l : String) (rest : List String) (lineNo sent : Nat) (o : Outcome)
      (js : List job) (cl : Bool)
      (ws : List WorkerSt) (rs : List result) (sub tk : List job) (em co : List result)
      (h : readLine (lineNo + 1) l = LineAct.abort o) :
      Step ⟨MainSt.reading (l :: rest) lineNo sent, js, cl, ws, rs, sub, tk, em, co⟩
        ⟨MainSt.exited o, js, cl, ws, rs, sub, tk, em, co⟩
  /-- Lines 155-156: `jobs <- job{...}; sent++`, when `jobs` has room. -/
  | readSubmit (l : String) (rest : List String) (lineNo sent : Nat) (j : job)
      (js : List job) (cl : Bool)
      (ws : List WorkerSt) (rs : List result) (sub tk : List job) (em co : List result)
      (h : readLine (lineNo + 1) l = LineAct.submit j) (hroom : js.length < jobsCap) :
      Step ⟨MainSt.reading (l :: rest) lineNo sent, js, cl, ws, rs, sub, tk, em, co⟩
        ⟨MainSt.reading rest (lineNo + 1) (sent + 1), js ++ [j], cl, ws, rs,
          sub ++ [j], tk, em, co⟩
  /-- Lines 157-164: the input is exhausted; `close(jobs)`, `totalBoxes := 0`,
  `i := 0`. -/
  | closeJobs (lineNo sent : Nat) (js : List job) (cl : Bool)
      (ws : List WorkerSt) (rs : List result) (sub tk : List job) (em co : List result) :
      Step ⟨MainSt.reading [] lineNo sent, js, cl, ws, rs, sub, tk, em, co⟩
        ⟨MainSt.aggregating 0 sent 0, js, true, ws, rs, sub, tk, em, co⟩
  /-- Lines 100-101: a waiting worker receives the oldest job and computes
  its result. -/
  | workerTake (m : MainSt) (j : job) (js : List job) (cl : Bool)
      (ws1 ws2 : List WorkerSt) (rs : List result) (sub tk : List job) (em co : List result)
      (halive : ∀ o, m ≠ MainSt.exited o) :
      Step ⟨m, j :: js, cl, ws1 ++ WorkerSt.idle :: ws2, rs, sub, tk, em, co⟩
        ⟨m, js, cl, ws1 ++ WorkerSt.holding (workerBody j) :: ws2, rs, sub, tk ++ [j], em, co⟩
  /-- Line 102: a worker sends its result, when `results` has room. -/
  | workerSend (m : MainSt) (r : result) (js : List job) (cl : Bool)
      (ws1 ws2 : List WorkerSt) (rs : List result) (sub tk : List job) (em co : List result)
      (halive : ∀ o, m ≠ MainSt.exited o) (hroom : rs.length < resultsCap) :
      Step ⟨m, js, cl, ws1 ++ WorkerSt.holding r :: ws2, rs, sub, tk, em, co⟩
        ⟨m, js, cl, ws1 ++ WorkerSt.idle :: ws2, rs ++ [r], sub, tk, em ++ [r], co⟩
  /-- Line 100: `jobs` is closed and empty, the worker's loop ends. -/
  | workerReturn (m : MainSt)
      (ws1 ws2 : List WorkerSt) (rs : List result) (sub tk : List job) (em co : List result)
      (halive : ∀ o, m ≠ MainSt.exited o) :
      Step ⟨m, [], true, ws1 ++ WorkerSt.idle :: ws2, rs, sub, tk, em, co⟩
        ⟨m, [], true, ws1 ++ WorkerSt.returned :: ws2, rs, sub, tk, em, co⟩
  /-- Lines 165-173: the aggregator receives a feasible result. -/
  | aggAdd (i sent : Nat) (totalBoxes : Int) (r : result) (js : List job) (cl : Bool)
      (ws : List WorkerSt) (rs : List result) (sub tk : List job) (em co : List result)
      (hi : i < sent) (hok : r.ok = true) :
      Step ⟨MainSt.aggregating i sent totalBoxes, js, cl, ws, r :: rs, sub, tk, em, co⟩
        ⟨MainSt.aggregating (i + 1) sent (wrapInt (totalBoxes + r.minBoxes)), js, cl, ws, rs,
          sub, tk, em, co ++ [r]⟩
  /-- Lines 165-171: the aggregator receives an infeasible result. -/
  | aggAbort (i sent : Nat) (totalBoxes : Int) (r : result) (js : List job) (cl : Bool)
      (ws : List WorkerSt) (rs : List result) (sub tk : List job) (em co : List result)
      (hi : i < sent) (hok : r.ok = false) :
      Step ⟨MainSt.aggregating i sent totalBoxes, js, cl, ws, r :: rs, sub, tk, em, co⟩
        ⟨MainSt.exited (Outcome.infeasible r.lineNo), js, cl, ws, rs, sub, tk, em, co ++ [r]⟩
  /-- Lines 165 and 176: `i < sent` fails, the total is printed. -/
  | aggDone (i sent : Nat) (totalBoxes : Int) (js : List job) (cl : Bool)
      (ws : List WorkerSt) (rs : List result) (sub tk : List job) (em co : List result)
      (hi : ¬ i < sent) :
      Step ⟨MainSt.aggregating i sent totalBoxes, js, cl, ws, rs, sub, tk, em, co⟩
        ⟨MainSt.exited (Outcome.total totalBoxes), js, cl, ws, rs, sub, tk, em, co⟩

/-- The states a run can be in: those reached from `init` by finitely many
steps, in any interleaving of the goroutines. -/
def Reachable (numWorkers : Nat) (lines : List String) (s : Pipeline) : Prop :=
  Relation.ReflTransGen Step (init numWorkers lines) s

/-- The results that workers hold and have not sent yet. -/
def held : List WorkerSt → List result
  | [] => []
  | WorkerSt.holding r :: ws => r :: held ws
  | _ :: ws => held ws

/-- What the state of the main goroutine says about the input `lines` and
the history: the reader loop continues the scan of `lines`; the aggregator
loop has added the results consumed so far; a printed outcome is the one the
input and the consumed results determine, and a diagnostic of the reader is
that of the line at which the scan stopped. -/
def MainOk (lines : List String) (s : Pipeline) : Prop :=
  match s.main with
  | MainSt.reading rest lineNo sent =>
    s.closed = false ∧ s.consumed = [] ∧ sent = s.submitted.length ∧
    readerLoop lineNo s.submitted rest = readerLoop 0 [] lines ∧
    ∃ pre, lines = pre ++ rest ∧ lineNo = pre.length ∧
      readerLoop 0 [] pre = Except.ok s.submitted
  | MainSt.aggregating i sent totalBoxes =>
    s.closed = true ∧ readerLoop 0 [] lines = Except.ok s.submitted ∧
    sent = s.submitted.length ∧ i = s.consumed.length ∧
    totalBoxes = aggTotal s.consumed ∧ ∀ r ∈ s.consumed, r.ok = true
  | MainSt.exited (Outcome.total t) =>
    readerLoop 0 [] lines = Except.ok s.submitted ∧
    s.consumed.Perm (s.submitted.map workerBody) ∧
    (∀ r ∈ s.consumed, r.ok = true) ∧ t = aggTotal s.consumed
  | MainSt.exited (Outcome.infeasible lineNo) =>
    readerLoop 0 [] lines = Except.ok s.submitted ∧
    ∃ j ∈ s.submitted, j.lineNo = lineNo ∧ (workerBody j).ok = false
  | MainSt.exited o =>
    readerLoop 0 [] lines = Except.error o ∧
    ∃ pre l rest, lines = pre ++ l :: rest ∧
      readerLoop 0 [] pre = Except.ok s.submitted ∧
      readLine (pre.length + 1) l = LineAct.abort o

/-- The invariant of the pipeline for `numWorkers` workers on the input
`lines`. -/
structure Inv (numWorkers : Nat) (lines : List String) (s : Pipeline) : Prop where
  sub_eq : s.submitted = s.taken ++ s.jobs
  em_eq : s.emitted = s.consumed ++ s.results
  perm : (held s.workers ++ s.emitted).Perm (s.taken.map workerBody)
  jobs_le : s.jobs.length ≤ jobsCap
  results_le : s.results.length ≤ resultsCap
  nworkers : s.workers.length = numWorkers
  main_ok : MainOk lines s

/-- The count that `minBoxesForN` returns for the value of a line, `0` for a
blank line (and for a line that does not parse). -/
def lineCount (l : String) : Int :=
  if trimSpace l = "" then 0
  else
    match parseInt (trimSpace l) with
    | some n => (minBoxesForN n).1
    | none => 0

/-- The sum, over the non-blank lines, of the count that `minBoxesForN`
returns for the line's value. -/
def sumCounts (lines : List String) : Int := (lines.map lineCount).sum

/-- Every non-blank trimmed line parses as a non-negative integer. -/
def AllParse (lines : List String) : Prop :=
  ∀ l ∈ lines, trimSpace l ≠ "" → ∃ n, parseInt (trimSpace l) = some n ∧ 0 ≤ n

/-- Every non-blank trimmed line parses as a non-negative integer whose
target is feasible. -/
def AllFeasible (lines : List String) : Prop :=
  ∀ l ∈ lines, trimSpace l ≠ "" →
    ∃ n, parseInt (trimSpace l) = some n ∧ 0 ≤ n ∧ (minBoxesForN n).2 = true

/-- The jobs of the lines `lines`, the first of which has the physical line
number `n + 1`: one job per line whose trimmed text is not empty, in file
order, carrying the physical line number and the parsed value. -/
def jobsFrom : Nat → List String → List job
  | _, [] => []
  | n, l :: rest =>
    if trimSpace l = "" then jobsFrom (n + 1) rest
    else
      match parseInt (trimSpace l) with
      | some v => { lineNo := n + 1, N := v } :: jobsFrom (n + 1) rest
      | none => jobsFrom (n + 1) rest

/-- The first `K` lines of `lines` exist and each of them becomes a job. -/
def JobPrefix (K : Nat) (lines : List String) : Prop :=
  ∀ i, i < K → ∃ l j, lines[i]? = some l ∧ readLine (i + 1) l = LineAct.submit j

/-- The weight of a worker in the termination measure. -/
def workerWeight : WorkerSt → Nat
  | WorkerSt.idle => 1
  | WorkerSt.holding _ => 3
  | WorkerSt.returned => 0

/-- The weight of the main goroutine in the termination measure. -/
def mainWeight : MainSt → Nat
  | MainSt.reading rest _ _ => 4 * rest.length + 3
  | MainSt.aggregating _ _ _ => 2
  | MainSt.exited _ => 0

/-- A measure that every step decreases. -/
def measure (s : Pipeline) : Nat :=
  mainWeight s.main + 3 * s.jobs.length + (s.workers.map workerWeight).sum + s.results.length

/-- An input with one more job than the two buffers and the workers can
hold: `jobsCap + numWorkers + resultsCap + 1` lines `5`. -/
def blockingInput (numWorkers : Nat) : List String :=
  List.replicate (jobsCap + numWorkers + resultsCap + 1) "5"

/-- An input of sixty lines, each the largest `int`. -/
def overflowInput : List String := List.replicate 60 "9223372036854775807"

/-- A job with its line number raised by one. -/
def bumpLine (j : job) : job := { j with lineNo := j.lineNo + 1 }

end Stage1

/-! Stage 2: the Vigenère tool (`src/stage2_vigenere.go`).

A string is a `String`, so the model covers arguments that are valid UTF-8;
`range` over a string then visits its characters one by one.
-/

namespace Stage2

/-- The position in `0..25` of Go's `unicode.ToLower(r)` when that lowercase
form is one of `a..z`, and `none` otherwise.  The runes whose lowercase form
is an ASCII letter are `a..z`, `A..Z`, U+0130 (lowercase `i`) and U+212A, the
Kelvin sign (lowercase `k`); all of them satisfy `unicode.IsLetter`. -/
def lowerIndex (r : Char) : Option Nat :=
  let n := r.toNat
  if 97 ≤ n ∧ n ≤ 122 then some (n - 97)
  else if 65 ≤ n ∧ n ≤ 90 then some (n - 65)
  else if n = 304 then some 8
  else if n = 8490 then some 10
  else none

/-- The function `keyShifts` (lines 24-34): for every rune of
`strings.ToLower(key)` in `a..z`, in order, the shift `int(r-'a')+1`. -/
def keyShifts (key : String) : List Int :=
  key.data.filterMap (fun r => (lowerIndex r).map (fun (x : Nat) => (x : Int) + 1))

/-- The rune written by line 63, `rune('a' + y)`. -/
def letterOf (y : Int) : Char := Char.ofNat (97 + y).toNat

/-- The loop of `decryptVigenere` (lines 47-70) from the key index `k`, on
the runes still to visit: the runes written to `out`. -/
def decryptLoop (shifts : List Int) : Nat → List Char → List Char
  | _, [] => []
  | k, r :: rest =>
    match lowerIndex r with
    | some x =>
      let shift := shifts.getD (k % shifts.length) 0
      let y := Int.tmod ((x : Int) - shift) 26
      let y := if y < 0 then y + 26 else y
      letterOf y :: decryptLoop shifts (k + 1) rest
    | none => r :: decryptLoop shifts k rest

/-- The function `decryptVigenere` (lines 36-73). -/
def decryptVigenere (cipher key : String) : String :=
  let shifts := keyShifts key
  if shifts.length = 0 then ""
  else ⟨decryptLoop shifts 0 cipher.data⟩

/-- The type `Candidate` (lines 13-17).  `Score` is a `float64` in the
source; `solveStage1` only compares scores, and `scoreEnglish` yields finite
values, so a score is a rational here and `scoreEnglish` is a parameter of
the model. -/
structure Candidate where
  Key : String
  Plain : String
  Score : ℚ
  deriving DecidableEq

instance : IsTotal Candidate (fun a b => a.Score ≤ b.Score) := ⟨fun _ _ => le_total _ _⟩

instance : IsTrans Candidate (fun a b => a.Score ≤ b.Score) :=
  ⟨fun _ _ _ h1 h2 => le_trans h1 h2⟩

instance : IsTotal Candidate (fun a b => a.Score ≥ b.Score) := ⟨fun _ _ => le_total _ _⟩

instance : IsTrans Candidate (fun a b => a.Score ≥ b.Score) :=
  ⟨fun _ _ _ h1 h2 => le_trans h2 h1⟩

/-- The call `sort.Slice(cands, ...)` of lines 177 and 185, ascending by
score.  `sort.Slice` does not fix the order of candidates with equal scores;
the model keeps them in their previous order. -/
def sortAsc (cands : List Candidate) : List Candidate :=
  cands.insertionSort (fun a b => a.Score ≤ b.Score)

/-- The call `sort.Slice(cands, ...)` of line 198, descending by score. -/
def sortDesc (cands : List Candidate) : List Candidate :=
  cands.insertionSort (fun a b => a.Score ≥ b.Score)

/-- The closure `pushCandidate` (lines 174-186) on the slice `cands`; the
error is the run-time panic of `cands[0]` on an empty slice. -/
def pushCandidate (topK : Int) (cands : List Candidate) (c : Candidate) :
    Except String (List Candidate) :=
  if (cands.length : Int) < topK then Except.ok (sortAsc (cands ++ [c]))
  else
    match cands with
    | [] => Except.error "index out of range [0] with length 0"
    | c0 :: rest =>
      if c.Score ≤ c0.Score then Except.ok (c0 :: rest)
      else Except.ok (sortAsc (c :: rest))

/-- The loop of `solveStage1` over the dictionary (lines 188-195). -/
def solveLoop (scoreEnglish : String → ℚ) (cipher : String) (topK : Int) :
    List String → List Candidate → Except String (List Candidate)
  | [], cands => Except.ok cands
  | key :: dict, cands =>
    let plain := decryptVigenere cipher key
    if plain = "" then solveLoop scoreEnglish cipher topK dict cands
    else
      match pushCandidate topK cands
          { Key := key, Plain := plain, Score := scoreEnglish plain } with
      | Except.error e => Except.error e
      | Except.ok cands' => solveLoop scoreEnglish cipher topK dict cands'

/-- The largest capacity that `make([]Candidate, 0, topK)` of line 171
accepts: a `Candidate` takes 40 bytes (two strings and a `float64`) and a
single allocation is limited to `2^48` bytes on a 64-bit platform with a
48-bit heap, so `40 * topK` must not exceed `2^48`.  An allocation within
that limit is taken to succeed. -/
def maxCandidates : Int := 7036874417766

/-- The function `solveStage1` (lines 170-200); an error is a run-time panic:
`make` with a negative capacity or one above `maxCandidates`, or the panic of
`pushCandidate`. -/
def solveStage1 (scoreEnglish : String → ℚ) (cipher : String) (dict : List String)
    (topK : Int) : Except String (List Candidate) :=
  if topK < 0 ∨ topK > maxCandidates then Except.error "makeslice: cap out of range"
  else
    match solveLoop scoreEnglish cipher topK dict [] with
    | Except.error e => Except.error e
    | Except.ok cands => Except.ok (sortDesc cands)

/-- The key letters as the claim words them: the runes of the key that are
letters `a..z` or `A..Z`, as 1-based alphabet positions. -/
def asciiKeyShifts (key : String) : List Int :=
  key.data.filterMap (fun r =>
    let n := r.toNat
    if 97 ≤ n ∧ n ≤ 122 then some ((n : Int) - 96)
    else if 65 ≤ n ∧ n ≤ 90 then some ((n : Int) - 64)
    else none)

/-- The candidates of a dictionary: for every key whose plaintext is not
empty, in order, the key with its plaintext and the score of the
plaintext. -/
def allCandidates (scoreEnglish : String → ℚ) (cipher : String) (dict : List String) :
    List Candidate :=
  dict.filterMap (fun key =>
    let plain := decryptVigenere cipher key
    if plain = "" then none
    else some { Key := key, Plain := plain, Score := scoreEnglish plain })

/-- The invariant of the loop of `solveStage1`: `cands` is sorted by
ascending score, has at most `topK` elements, and holds the best of the
candidates `seen` so far: the candidates left out (`rest`) score no higher
than any candidate kept, and none is left out while `cands` is not full. -/
def TopInv (topK : Int) (cands seen : List Candidate) : Prop :=
  cands.Sorted (fun a b => a.Score ≤ b.Score) ∧ (cands.length : Int) ≤ topK ∧
  ∃ rest, (cands ++ rest).Perm seen ∧ (rest ≠ [] → (cands.length : Int) = topK) ∧
    ∀ c ∈ cands, ∀ d ∈ rest, d.Score ≤ c.Score

/-- The number of runes of `rs` whose lowercase form is in `a..z`. -/
def letterCount (rs : List Char) : Nat :=
  (rs.filter (fun r => (lowerIndex r).isSome)).length

end Stage2

/-! # Theorems -/

namespace Stage1

/-! ### Arithmetic of the closed-form step -/

theorem closedC_eq (R : Int) (hR : 0 ≤ R) :
    closedC R = R / 16 - (R / 16 - R % 5 + 5) % 5 := by
  have h16 : Int.tdiv R 16 = R / 16 := Int.tdiv_eq_ediv hR (by decide)
  have h5 : Int.tmod R 5 = R % 5 := Int.tmod_eq_emod hR (by decide)
  have hnn : 0 ≤ R / 16 - R % 5 + 5 := by omega
  unfold closedC
  simp only [h16, h5, Int.tmod_eq_emod hnn (by decide : (0 : Int) ≤ 5)]

theorem candidate_eq (a b R : Int) (hR : 0 ≤ R) :
    candidate a b R =
      if closedC R < 0 then none
      else some (a + b + closedC R + (R - 16 * closedC R) / 5) := by
  have hc := closedC_eq R hR
  unfold candidate
  by_cases hneg : closedC R < 0
  · simp [hneg]
  · have hrest : 0 ≤ R - 16 * closedC R := by omega
    have hmod : Int.tmod (R - 16 * closedC R) 5 = 0 := by
      rw [Int.tmod_eq_emod hrest (by decide)]; omega
    have hdiv : Int.tdiv (R - 16 * closedC R) 5 = (R - 16 * closedC R) / 5 :=
      Int.tdiv_eq_ediv hrest (by decide)
    simp [hneg, hmod, hdiv, not_lt.mpr hrest]

theorem candidate_sound (a b R t : Int) (hR : 0 ≤ R)
    (h : candidate a b R = some t) :
    ∃ c d : Int, 0 ≤ c ∧ 0 ≤ d ∧ 16 * c + 5 * d = R ∧ t = a + b + c + d := by
  rw [candidate_eq a b R hR] at h
  have hc := closedC_eq R hR
  by_cases hneg : closedC R < 0
  · simp [hneg] at h
  · simp only [hneg, if_false, Option.some.injEq] at h
    refine ⟨closedC R, (R - 16 * closedC R) / 5, by omega, by omega, by omega, h.symm⟩

theorem candidate_complete (a b R c d : Int) (hc : 0 ≤ c) (hd : 0 ≤ d)
    (h : 16 * c + 5 * d = R) :
    ∃ t, candidate a b R = some t ∧ t ≤ a + b + c + d := by
  have hR : 0 ≤ R := by omega
  have hcc := closedC_eq R hR
  have hge : c ≤ closedC R := by omega
  have hneg : ¬ closedC R < 0 := by omega
  rw [candidate_eq a b R hR, if_neg hneg]
  exact ⟨_, rfl, by omega⟩

/-! ### The two loops -/

theorem update_inv (N : Int) (st : Int × Bool) (a b c d : Int)
    (hst : SolInv N st) (hd : Decomp N a b c d) :
    SolInv N (update st (a + b + c + d)) := by
  unfold update
  split
  · exact ⟨by simp, fun _ => ⟨a, b, c, d, hd, rfl⟩⟩
  · exact hst

theorem update_mono (st : Int × Bool) (t u : Int) (h : Below st t) :
    Below (update st u) t := by
  unfold update
  split
  · exact ⟨rfl, by have := h.2; simp only; omega⟩
  · exact h

theorem update_below (N : Int) (st : Int × Bool) (t : Int)
    (hst : SolInv N st) (ht : t < INF) : Below (update st t) t := by
  unfold update
  split
  · exact ⟨rfl, le_refl _⟩
  · rename_i hlt
    refine ⟨?_, by omega⟩
    by_contra hf
    have := hst.1 (by simpa using hf)
    omega

theorem loopB_spec (N a R1 maxB : Int) (hN1 : 1 ≤ N) (hN : N ≤ INF)
    (ha : 0 ≤ a) (hR1 : R1 = N - 59 * a) (hmax : 42 * maxB ≤ R1) :
    ∀ (fuel : Nat) (b : Int) (st : Int × Bool), 0 ≤ b →
      (maxB + 1 - b).toNat ≤ fuel → SolInv N st →
      SolInv N (loopB a R1 maxB fuel b st) ∧
      (∀ t, Below st t → Below (loopB a R1 maxB fuel b st) t) ∧
      (∀ b' t, b ≤ b' → b' ≤ maxB → candidate a b' (R1 - 42 * b') = some t →
        Below (loopB a R1 maxB fuel b st) t) := by
  intro fuel
  induction fuel with
  | zero =>
    intro b st _ hfuel hst
    refine ⟨hst, fun _ h => h, ?_⟩
    intro b' t h1 h2 _
    omega
  | succ fuel ih =>
    intro b st hb hfuel hst
    unfold loopB
    by_cases hle : b ≤ maxB
    · have hR : ¬ R1 - 42 * b < 0 := by omega
      simp only [hle, if_true, hR, if_false]
      cases hcand : candidate a b (R1 - 42 * b) with
      | none =>
        obtain ⟨h1, h2, h3⟩ := ih (b + 1) st (by omega) (by omega) hst
        refine ⟨h1, h2, ?_⟩
        intro b' t hb' hb'' hc
        by_cases heq : b' = b
        · subst heq; rw [hcand] at hc; cases hc
        · exact h3 b' t (by omega) hb'' hc
      | some t0 =>
        obtain ⟨c, d, hc0, hd0, hcd, ht0⟩ := candidate_sound a b _ t0 (by omega) hcand
        have hdec : Decomp N a b c d := ⟨ha, hb, hc0, hd0, by omega⟩
        have hst' : SolInv N (update st t0) := by
          rw [ht0]; exact update_inv N st a b c d hst hdec
        have hlt : t0 < INF := by omega
        obtain ⟨h1, h2, h3⟩ := ih (b + 1) (update st t0) (by omega) (by omega) hst'
        refine ⟨h1, fun t h => h2 t (update_mono st t t0 h), ?_⟩
        intro b' t hb' hb'' hc
        by_cases heq : b' = b
        · subst heq
          rw [hcand] at hc
          cases hc
          exact h2 _ (update_below N st _ hst hlt)
        · exact h3 b' t (by omega) hb'' hc
    · simp only [hle, if_false]
      refine ⟨hst, fun _ h => h, ?_⟩
      intro b' t h1 h2 _
      omega

theorem loopA_spec (N maxA : Int) (hN1 : 1 ≤ N) (hN : N ≤ INF)
    (hmax : 59 * maxA ≤ N) :
    ∀ (fuel : Nat) (a : Int) (st : Int × Bool), 0 ≤ a →
      (maxA + 1 - a).toNat ≤ fuel → SolInv N st →
      SolInv N (loopA N maxA fuel a st) ∧
      (∀ t, Below st t → Below (loopA N maxA fuel a st) t) ∧
      (∀ a' b' t, a ≤ a' → a' ≤ maxA → 0 ≤ b' → 42 * b' ≤ N - 59 * a' →
        candidate a' b' (N - 59 * a' - 42 * b') = some t →
        Below (loopA N maxA fuel a st) t) := by
  intro fuel
  induction fuel with
  | zero =>
    intro a st _ hfuel hst
    refine ⟨hst, fun _ h => h, ?_⟩
    intro a' b' t h1 h2 _ _ _
    omega
  | succ fuel ih =>
    intro a st ha hfuel hst
    unfold loopA
    by_cases hle : a ≤ maxA
    · have hR : ¬ N - 59 * a < 0 := by omega
      simp only [hle, if_true, hR, if_false]
      have hR1 : 0 ≤ N - 59 * a := by omega
      have hdiv : Int.tdiv (N - 59 * a) 42 = (N - 59 * a) / 42 :=
        Int.tdiv_eq_ediv hR1 (by decide)
      rw [hdiv]
      obtain ⟨g1, g2, g3⟩ :=
        loopB_spec N a (N - 59 * a) ((N - 59 * a) / 42) hN1 hN ha rfl (by omega)
          ((N - 59 * a) / 42 + 1).toNat 0 st (le_refl _) (by simp) hst
      obtain ⟨h1, h2, h3⟩ := ih (a + 1) _ (by omega) (by omega) g1
      refine ⟨h1, fun t h => h2 t (g2 t h), ?_⟩
      intro a' b' t ha' ha'' hb' hb'' hc
      by_cases heq : a' = a
      · subst heq
        exact h2 t (g3 b' t hb' (by omega) hc)
      · exact h3 a' b' t (by omega) ha'' hb' hb'' hc
    · simp only [hle, if_false]
      refine ⟨hst, fun _ h => h, ?_⟩
      intro a' b' t h1 h2 _ _ _
      omega

/-- For a target in `1 .. INF` the result satisfies the loop invariant and is
below the part count of every decomposition of `N`. -/
theorem minBoxesForN_spec (N : Int) (hN1 : 1 ≤ N) (hN : N ≤ INF) :
    SolInv N (minBoxesForN N) ∧
    ∀ a b c d : Int, Decomp N a b c d → Below (minBoxesForN N) (a + b + c + d) := by
  have hunf : minBoxesForN N = loopA N (N / 59) (N / 59 + 1).toNat 0 (INF, false) := by
    unfold minBoxesForN
    have h1 : ¬ N < 0 := by omega
    have h2 : ¬ N = 0 := by omega
    have h3 : Int.tdiv N 59 = N / 59 := Int.tdiv_eq_ediv (by omega) (by decide)
    simp only [h1, h2, if_false, h3]
  rw [hunf]
  have hinit : SolInv N (INF, false) := ⟨fun _ => rfl, fun h => by simp at h⟩
  obtain ⟨h1, _, h3⟩ :=
    loopA_spec N (N / 59) hN1 hN (by omega) (N / 59 + 1).toNat 0 (INF, false)
      (le_refl _) (by simp) hinit
  refine ⟨h1, ?_⟩
  intro a b c d ⟨ha, hb, hc, hd, hsum⟩
  obtain ⟨t, ht, hle⟩ := candidate_complete a b (N - 59 * a - 42 * b) c d hc hd (by omega)
  have := h3 a b t ha (by omega) hb (by omega) ht
  exact ⟨this.1, le_trans this.2 hle⟩

/-! ### Correctness of the dynamic-programming reference -/

theorem isOptOver_congr (P Q : Nat → Prop) (o : Option Nat) (h : ∀ k, P k ↔ Q k)
    (ho : IsOptOver P o) : IsOptOver Q o := by
  cases o with
  | none => exact fun k hk => ho k ((h k).mpr hk)
  | some k => exact ⟨(h k).mp ho.1, fun j hj => ho.2 j ((h j).mpr hj)⟩

theorem optMin_spec (P Q : Nat → Prop) (x y : Option Nat)
    (hx : IsOptOver P x) (hy : IsOptOver Q y) :
    IsOptOver (fun k => P k ∨ Q k) (optMin x y) := by
  cases x with
  | none =>
    cases y with
    | none => exact fun k hk => hk.elim (hx k) (hy k)
    | some b => exact ⟨Or.inr hy.1, fun j hj => hj.elim (fun h => absurd h (hx j)) (hy.2 j)⟩
  | some a =>
    cases y with
    | none => exact ⟨Or.inl hx.1, fun j hj => hj.elim (hx.2 j) (fun h => absurd h (hy j))⟩
    | some b =>
      refine ⟨?_, ?_⟩
      · show P (min a b) ∨ Q (min a b)
        rcases le_total a b with h | h
        · rw [min_eq_left h]; exact Or.inl hx.1
        · rw [min_eq_right h]; exact Or.inr hy.1
      · intro j hj
        show min a b ≤ j
        rcases hj with h | h
        · exact le_trans (min_le_left a b) (hx.2 j h)
        · exact le_trans (min_le_right a b) (hy.2 j h)

theorem coin_spec (s m : Nat) (o : Option Nat) (ho : s ≤ m → IsOptOver (Cnt (m - s)) o) :
    IsOptOver (fun k => s ≤ m ∧ ∃ k0, k = k0 + 1 ∧ Cnt (m - s) k0)
      (if s ≤ m then o.map (· + 1) else none) := by
  by_cases hs : s ≤ m
  · rw [if_pos hs]
    have h := ho hs
    cases o with
    | none =>
      show IsOptOver _ none
      rintro k ⟨_, k0, _, hk0⟩
      exact h k0 hk0
    | some k =>
      show IsOptOver _ (some (k + 1))
      refine ⟨⟨hs, k, rfl, h.1⟩, ?_⟩
      rintro j ⟨_, k0, rfl, hk0⟩
      have := h.2 k0 hk0
      omega
  · rw [if_neg hs]
    rintro k ⟨h, _⟩
    exact hs h

theorem cnt_succ_iff (n k : Nat) :
    Cnt (n + 1) k ↔
      ((((False ∨ (5 ≤ n + 1 ∧ ∃ k0, k = k0 + 1 ∧ Cnt (n + 1 - 5) k0)) ∨
        (16 ≤ n + 1 ∧ ∃ k0, k = k0 + 1 ∧ Cnt (n + 1 - 16) k0)) ∨
        (42 ≤ n + 1 ∧ ∃ k0, k = k0 + 1 ∧ Cnt (n + 1 - 42) k0)) ∨
        (59 ≤ n + 1 ∧ ∃ k0, k = k0 + 1 ∧ Cnt (n + 1 - 59) k0)) := by
  constructor
  · rintro ⟨a, b, c, d, hsum, hk⟩
    by_cases ha : 0 < a
    · exact Or.inr ⟨by omega, k - 1, by omega, a - 1, b, c, d, by omega, by omega⟩
    by_cases hb : 0 < b
    · exact Or.inl (Or.inr ⟨by omega, k - 1, by omega, a, b - 1, c, d, by omega, by omega⟩)
    by_cases hc : 0 < c
    · exact Or.inl (Or.inl (Or.inr
        ⟨by omega, k - 1, by omega, a, b, c - 1, d, by omega, by omega⟩))
    · exact Or.inl (Or.inl (Or.inl (Or.inr
        ⟨by omega, k - 1, by omega, a, b, c, d - 1, by omega, by omega⟩)))
  · rintro ((((h | ⟨hs, k0, rfl, a, b, c, d, hsum, hk⟩) | ⟨hs, k0, rfl, a, b, c, d, hsum, hk⟩) |
      ⟨hs, k0, rfl, a, b, c, d, hsum, hk⟩) | ⟨hs, k0, rfl, a, b, c, d, hsum, hk⟩)
    · exact h.elim
    · exact ⟨a, b, c, d + 1, by omega, by omega⟩
    · exact ⟨a, b, c + 1, d, by omega, by omega⟩
    · exact ⟨a, b + 1, c, d, by omega, by omega⟩
    · exact ⟨a + 1, b, c, d, by omega, by omega⟩

theorem dpEntry_eq (n : Nat) (t : List (Option Nat)) :
    dpEntry n t =
      optMin (optMin (optMin (optMin none
        (if 5 ≤ n + 1 then (t[5 - 1]?).join.map (· + 1) else none))
        (if 16 ≤ n + 1 then (t[16 - 1]?).join.map (· + 1) else none))
        (if 42 ≤ n + 1 then (t[42 - 1]?).join.map (· + 1) else none))
        (if 59 ≤ n + 1 then (t[59 - 1]?).join.map (· + 1) else none) := by
  have hnone : ∀ x : Option Nat, optMin x none = x := by
    intro x; cases x <;> rfl
  unfold dpEntry sizes
  simp only [List.foldl_cons, List.foldl_nil]
  by_cases h5 : 5 ≤ n + 1 <;> by_cases h16 : 16 ≤ n + 1 <;> by_cases h42 : 42 ≤ n + 1 <;>
    by_cases h59 : 59 ≤ n + 1 <;> simp only [h5, h16, h42, h59, if_true, if_false, hnone]

theorem dpTable_spec (n : Nat) :
    (dpTable n).length = n + 1 ∧
    ∀ i, i ≤ n → IsOptOver (Cnt (n - i)) ((dpTable n)[i]?.join) := by
  induction n with
  | zero =>
    refine ⟨rfl, ?_⟩
    intro i hi
    have : i = 0 := by omega
    subst this
    refine ⟨⟨0, 0, 0, 0, rfl, rfl⟩, fun j _ => Nat.zero_le j⟩
  | succ n ih =>
    obtain ⟨hlen, hall⟩ := ih
    refine ⟨by simp [dpTable, hlen], ?_⟩
    intro i hi
    cases i with
    | zero =>
      have hcoin : ∀ s, 1 ≤ s → s ≤ n + 1 →
          IsOptOver (Cnt (n + 1 - s)) ((dpTable n)[s - 1]?.join) := by
        intro s hs1 hs
        have := hall (s - 1) (by omega)
        have heq : n - (s - 1) = n + 1 - s := by omega
        rwa [heq] at this
      have hentry : IsOptOver (Cnt (n + 1)) (dpEntry n (dpTable n)) := by
        rw [dpEntry_eq]
        refine isOptOver_congr _ _ _ (fun k => (cnt_succ_iff n k).symm) ?_
        have hfalse : IsOptOver (fun _ => False) none := fun _ h => h
        exact optMin_spec _ _ _ _ (optMin_spec _ _ _ _ (optMin_spec _ _ _ _
          (optMin_spec _ _ _ _ hfalse
            (coin_spec 5 (n + 1) _ (hcoin 5 (by decide))))
            (coin_spec 16 (n + 1) _ (hcoin 16 (by decide))))
            (coin_spec 42 (n + 1) _ (hcoin 42 (by decide))))
            (coin_spec 59 (n + 1) _ (hcoin 59 (by decide)))
      simpa [dpTable] using hentry
    | succ i =>
      have := hall i (by omega)
      have heq : n + 1 - (i + 1) = n - i := by omega
      rw [heq]
      simpa [dpTable] using this

/-- The reference computes the least part count of `n`, or `none` when `n`
has no decomposition. -/
theorem dpReference_spec (n : Nat) : IsOptOver (Cnt n) (dpReference n) :=
  (dpTable_spec n).2 0 (Nat.zero_le n)

/-! ### The contract of the solver -/

theorem minBoxesForN_zero : minBoxesForN 0 = (0, true) := by decide

/-- For a target in `0 .. INF`: a reported count is the part count of a
decomposition, and every decomposition makes the solver report a count that
is no larger. -/
theorem minBoxesForN_char (N : Int) (h0 : 0 ≤ N) (hN : N ≤ INF) :
    ((minBoxesForN N).2 = true →
      ∃ a b c d : Int, Decomp N a b c d ∧ a + b + c + d = (minBoxesForN N).1) ∧
    ∀ a b c d : Int, Decomp N a b c d →
      (minBoxesForN N).2 = true ∧ (minBoxesForN N).1 ≤ a + b + c + d := by
  by_cases hz : N = 0
  · subst hz
    rw [minBoxesForN_zero]
    refine ⟨fun _ => ⟨0, 0, 0, 0, by decide, rfl⟩, ?_⟩
    rintro a b c d ⟨ha, hb, hc, hd, _⟩
    exact ⟨rfl, by show (0 : Int) ≤ a + b + c + d; omega⟩
  · obtain ⟨hinv, hall⟩ := minBoxesForN_spec N (by omega) hN
    exact ⟨hinv.2, hall⟩

theorem cnt_of_decomp (N a b c d : Int) (h : Decomp N a b c d) :
    Cnt N.toNat (a + b + c + d).toNat := by
  obtain ⟨ha, hb, hc, hd, hsum⟩ := h
  exact ⟨a.toNat, b.toNat, c.toNat, d.toNat, by omega, by omega⟩

theorem decomp_of_cnt (N : Int) (k : Nat) (h0 : 0 ≤ N) (h : Cnt N.toNat k) :
    ∃ a b c d : Int, Decomp N a b c d ∧ a + b + c + d = k := by
  obtain ⟨a, b, c, d, hsum, hk⟩ := h
  exact ⟨a, b, c, d, ⟨by omega, by omega, by omega, by omega, by omega⟩, by omega⟩

/-- C1: for every `int` value `N >= 0`, a count that `minBoxesForN N` returns
with `ok = true` is the true minimum: some decomposition of `N` over
59, 42, 16, 5 has that many parts and no decomposition has fewer.  The result
also agrees with the dynamic-programming reference `dpReference` (for every
such `N`, in particular for `0 <= N <= 2000`): the reference yields the
returned count when `ok = true` and nothing when `ok = false`. -/
theorem minBoxesForN_minimal (N : Int) (h0 : 0 ≤ N) (hN : N ≤ INF) :
    (∀ count : Int, minBoxesForN N = (count, true) →
      (∃ a b c d : Int, Decomp N a b c d ∧ a + b + c + d = count) ∧
      (∀ a' b' c' d' : Int, Decomp N a' b' c' d' → count ≤ a' + b' + c' + d')) ∧
    dpReference N.toNat =
      (if (minBoxesForN N).2 = true then some (minBoxesForN N).1.toNat else none) := by
  obtain ⟨hsound, hall⟩ := minBoxesForN_char N h0 hN
  refine ⟨?_, ?_⟩
  · intro count hok
    rw [hok] at hsound hall
    exact ⟨hsound rfl, fun a b c d hd => (hall a b c d hd).2⟩
  · have hopt := dpReference_spec N.toNat
    by_cases hf : (minBoxesForN N).2 = true
    · rw [if_pos hf]
      obtain ⟨a, b, c, d, hd, hcnt⟩ := hsound hf
      have hc := cnt_of_decomp N a b c d hd
      rw [hcnt] at hc
      cases hdp : dpReference N.toNat with
      | none => rw [hdp] at hopt; exact absurd hc (hopt _)
      | some k =>
        rw [hdp] at hopt
        have h1 := hopt.2 _ hc
        obtain ⟨a', b', c', d', hd', hk⟩ := decomp_of_cnt N k h0 hopt.1
        have h2 := (hall a' b' c' d' hd').2
        congr 1
        omega
    · rw [if_neg hf]
      cases hdp : dpReference N.toNat with
      | none => rfl
      | some k =>
        rw [hdp] at hopt
        obtain ⟨a', b', c', d', hd', _⟩ := decomp_of_cnt N k h0 hopt.1
        exact absurd (hall a' b' c' d' hd').1 hf

theorem minBoxesForN_minimal_witness :
    (∀ count : Int, minBoxesForN 64 = (count, true) →
      (∃ a b c d : Int, Decomp 64 a b c d ∧ a + b + c + d = count) ∧
      (∀ a' b' c' d' : Int, Decomp 64 a' b' c' d' → count ≤ a' + b' + c' + d')) ∧
    dpReference (64 : Int).toNat =
      (if (minBoxesForN 64).2 = true then some (minBoxesForN 64).1.toNat else none) :=
  minBoxesForN_minimal 64 (by decide) (by decide)

/-- C2: for every `int` value `N >= 0`, `minBoxesForN N` reports `ok = true`
exactly when `N` is a sum of non-negative multiples of 59, 42, 16 and 5. -/
theorem minBoxesForN_ok_iff (N : Int) (h0 : 0 ≤ N) (hN : N ≤ INF) :
    (minBoxesForN N).2 = true ↔ ∃ a b c d : Int, Decomp N a b c d := by
  by_cases hz : N = 0
  · subst hz
    rw [minBoxesForN_zero]
    exact ⟨fun _ => ⟨0, 0, 0, 0, by decide⟩, fun _ => rfl⟩
  · obtain ⟨hinv, hall⟩ := minBoxesForN_spec N (by omega) hN
    constructor
    · intro h
      obtain ⟨a, b, c, d, hd, _⟩ := hinv.2 h
      exact ⟨a, b, c, d, hd⟩
    · rintro ⟨a, b, c, d, hd⟩
      exact (hall a b c d hd).1

theorem minBoxesForN_ok_iff_witness :
    (minBoxesForN 64).2 = true ↔ ∃ a b c d : Int, Decomp 64 a b c d :=
  minBoxesForN_ok_iff 64 (by decide) (by decide)

/-- C10: for every `int` value `N >= 0` on which `minBoxesForN` reports
`ok = true`, the returned count is at most the ceiling of `N / 5`. -/
theorem minBoxesForN_le_ceil (N count : Int) (h0 : 0 ≤ N) (hN : N ≤ INF)
    (hok : minBoxesForN N = (count, true)) :
    count ≤ ⌈(N : ℚ) / 5⌉ := by
  have hfloor : 5 * count ≤ N := by
    by_cases hz : N = 0
    · subst hz
      rw [minBoxesForN_zero] at hok
      cases hok
      decide
    · obtain ⟨hinv, _⟩ := minBoxesForN_spec N (by omega) hN
      rw [hok] at hinv
      obtain ⟨a, b, c, d, ⟨ha, hb, hc, hd, hsum⟩, hcnt⟩ := hinv.2 rfl
      simp only at hcnt
      omega
  rw [Int.le_ceil_iff]
  have h1 : ((5 * count : Int) : ℚ) ≤ (N : ℚ) := by exact_mod_cast hfloor
  push_cast at h1
  linarith

theorem minBoxesForN_le_ceil_witness : (2 : Int) ≤ ⌈((64 : Int) : ℚ) / 5⌉ :=
  minBoxesForN_le_ceil 64 2 (by decide) (by decide) (by decide)

/-! ## The pipeline invariant -/

theorem held_append (ws1 ws2 : List WorkerSt) : held (ws1 ++ ws2) = held ws1 ++ held ws2 := by
  induction ws1 with
  | nil => rfl
  | cons w ws ih =>
    cases w <;> simp [held, ih]

theorem held_length_le (ws : List WorkerSt) : (held ws).length ≤ ws.length := by
  induction ws with
  | nil => simp [held]
  | cons w ws ih =>
    cases w <;> simp [held] <;> omega

theorem held_replicate_idle (n : Nat) : held (List.replicate n WorkerSt.idle) = [] := by
  induction n with
  | zero => rfl
  | succ n ih => simpa [List.replicate_succ, held] using ih

theorem aggTotal_append (rs : List result) (r : result) :
    aggTotal (rs ++ [r]) = wrapInt (aggTotal rs + r.minBoxes) := by
  simp [aggTotal, List.foldl_append]

theorem inv_init (numWorkers : Nat) (lines : List String) :
    Inv numWorkers lines (init numWorkers lines) where
  sub_eq := rfl
  em_eq := rfl
  perm := by simp [init, held_replicate_idle]
  jobs_le := by simp [init]
  results_le := by simp [init]
  nworkers := by simp [init]
  main_ok := ⟨rfl, rfl, rfl, rfl, [], rfl, rfl, rfl⟩

theorem readerLoop_append (p q : List String) :
    ∀ (n : Nat) (acc : List job),
      readerLoop n acc (p ++ q) =
        match readerLoop n acc p with
        | Except.ok js => readerLoop (n + p.length) js q
        | Except.error o => Except.error o := by
  induction p with
  | nil => intro n acc; simp [readerLoop]
  | cons l p ih =>
    intro n acc
    have hlen : n + (l :: p).length = n + 1 + p.length := by
      simp only [List.length_cons]; omega
    rw [hlen]
    simp only [List.cons_append, readerLoop]
    cases readLine (n + 1) l with
    | skip => exact ih _ _
    | abort o => rfl
    | submit j => exact ih _ _

theorem readLine_abort (n : Nat) (l : String) (o : Outcome)
    (h : readLine n l = LineAct.abort o) :
    (∃ line, o = Outcome.invalidLine n line) ∨ (∃ v, o = Outcome.outOfRange n v) := by
  unfold readLine at h
  simp only at h
  split at h
  · cases h
  · split at h
    · cases h
      exact Or.inl ⟨_, rfl⟩
    · split at h
      · cases h
        exact Or.inr ⟨_, rfl⟩
      · cases h

theorem inv_step (numWorkers : Nat) (lines : List String) (s s' : Pipeline)
    (hinv : Inv numWorkers lines s) (hstep : Step s s') : Inv numWorkers lines s' := by
  obtain ⟨h1, h2, h3, h4, h5, h6, h7⟩ := hinv
  cases hstep with
  | readSkip l rest lineNo sent js cl ws rs sub tk em co h =>
    simp only [MainOk] at h7
    obtain ⟨m1, m2, m3, m4, pre, m5, m6, m7⟩ := h7
    refine ⟨h1, h2, h3, h4, h5, h6, ?_⟩
    simp only [MainOk]
    refine ⟨m1, m2, m3, ?_, pre ++ [l], by simp [m5], by simp [m6], ?_⟩
    · rw [← m4]
      conv => rhs; unfold readerLoop
      simp only [h]
    · rw [readerLoop_append, m7]
      simp only [Nat.zero_add, ← m6, readerLoop, h]
  | readAbort l rest lineNo sent o js cl ws rs sub tk em co h =>
    simp only [MainOk] at h7
    obtain ⟨m1, m2, m3, m4, pre, m5, m6, m7⟩ := h7
    refine ⟨h1, h2, h3, h4, h5, h6, ?_⟩
    have hres : readerLoop 0 [] lines = Except.error o := by
      rw [← m4]
      conv => lhs; unfold readerLoop
      simp only [h]
    rw [m6] at h
    rcases readLine_abort _ _ _ h with ⟨line, rfl⟩ | ⟨v, rfl⟩
    · simp only [MainOk]
      exact ⟨hres, pre, l, rest, m5, m7, h⟩
    · simp only [MainOk]
      exact ⟨hres, pre, l, rest, m5, m7, h⟩
  | readSubmit l rest lineNo sent j js cl ws rs sub tk em co h hroom =>
    simp only [MainOk] at h7
    obtain ⟨m1, m2, m3, m4, pre, m5, m6, m7⟩ := h7
    simp only at h1 h2 h3 h4 h5 h6
    refine ⟨by simp [h1], h2, h3, by simp; omega, h5, h6, ?_⟩
    simp only [MainOk]
    refine ⟨m1, m2, by simp [m3], ?_, pre ++ [l], by simp [m5], by simp [m6], ?_⟩
    · rw [← m4]
      conv => rhs; unfold readerLoop
      simp only [h]
    · rw [readerLoop_append, m7]
      simp only [Nat.zero_add, ← m6, readerLoop, h]
  | closeJobs lineNo sent js cl ws rs sub tk em co =>
    simp only [MainOk] at h7
    obtain ⟨m1, m2, m3, m4, pre, m5, m6, m7⟩ := h7
    refine ⟨h1, h2, h3, h4, h5, h6, ?_⟩
    simp only [MainOk]
    refine ⟨trivial, ?_, m3, by simp [m2], by simp [m2, aggTotal], by simp [m2]⟩
    rw [← m4]
    simp [readerLoop]
  | workerTake m j js cl ws1 ws2 rs sub tk em co halive =>
    simp only at h1 h2 h3 h4 h5 h6
    refine ⟨by simp [h1], h2, ?_, by simp at h4 ⊢; omega, h5, by simpa using h6, ?_⟩
    · simp only [held_append, held, List.map_append, List.map_cons, List.map_nil] at h3 ⊢
      have hp : (held ws1 ++ workerBody j :: held ws2 ++ em).Perm
          (workerBody j :: (held ws1 ++ held ws2 ++ em)) := by
        simp only [List.append_assoc, List.cons_append]
        exact List.perm_middle
      exact hp.trans ((List.Perm.cons _ h3).trans (List.perm_append_singleton _ _).symm)
    · cases m with
      | reading rest lineNo sent =>
        simp only [MainOk] at h7 ⊢
        exact h7
      | aggregating i sent t =>
        simp only [MainOk] at h7 ⊢
        exact h7
      | exited o => exact absurd rfl (halive o)
  | workerSend m r js cl ws1 ws2 rs sub tk em co halive hroom =>
    simp only at h1 h2 h3 h4 h5 h6
    refine ⟨h1, by simp [h2], ?_, h4, by simp; omega, by simpa using h6, ?_⟩
    · simp only [held_append, held] at h3 ⊢
      have hp : (held ws1 ++ held ws2 ++ (em ++ [r])).Perm
          (r :: (held ws1 ++ held ws2 ++ em)) := by
        rw [← List.append_assoc]
        exact List.perm_append_singleton _ _
      have hq : (held ws1 ++ r :: held ws2 ++ em).Perm
          (r :: (held ws1 ++ held ws2 ++ em)) := by
        simp only [List.append_assoc, List.cons_append]
        exact List.perm_middle
      exact hp.trans (hq.symm.trans h3)
    · cases m with
      | reading rest lineNo sent =>
        simp only [MainOk] at h7 ⊢
        exact h7
      | aggregating i sent t =>
        simp only [MainOk] at h7 ⊢
        exact h7
      | exited o => exact absurd rfl (halive o)
  | workerReturn m ws1 ws2 rs sub tk em co halive =>
    simp only at h1 h2 h3 h4 h5 h6
    refine ⟨h1, h2, ?_, h4, h5, by simpa using h6, ?_⟩
    · simpa only [held_append, held] using h3
    · cases m with
      | reading rest lineNo sent =>
        simp only [MainOk] at h7 ⊢
        exact h7
      | aggregating i sent t =>
        simp only [MainOk] at h7 ⊢
        exact h7
      | exited o => exact absurd rfl (halive o)
  | aggAdd i sent t r js cl ws rs sub tk em co hi hok =>
    simp only [MainOk] at h7
    obtain ⟨m0, m1, m2, m3, m4, m5⟩ := h7
    simp only at h1 h2 h3 h4 h5 h6
    refine ⟨h1, by simp [h2], h3, h4, by simp at h5 ⊢; omega, h6, ?_⟩
    simp only [MainOk]
    refine ⟨m0, m1, m2, by simp [m3], by rw [aggTotal_append, m4], ?_⟩
    intro x hx
    rcases List.mem_append.mp hx with hx | hx
    · exact m5 x hx
    · simp only [List.mem_singleton] at hx
      rw [hx]; exact hok
  | aggAbort i sent t r js cl ws rs sub tk em co hi hok =>
    simp only [MainOk] at h7
    obtain ⟨m0, m1, m2, m3, m4, m5⟩ := h7
    simp only at h1 h2 h3 h4 h5 h6
    refine ⟨h1, by simp [h2], h3, h4, by simp at h5 ⊢; omega, h6, ?_⟩
    simp only [MainOk]
    refine ⟨m1, ?_⟩
    have hr : r ∈ held ws ++ em := by simp [h2]
    have hr' := (h3.mem_iff).mp hr
    obtain ⟨j, hj, hjr⟩ := List.mem_map.mp hr'
    refine ⟨j, by simp [h1, hj], ?_, ?_⟩
    · rw [← hjr]; rfl
    · rw [hjr]; exact hok
  | aggDone i sent t js cl ws rs sub tk em co hi =>
    simp only [MainOk] at h7
    obtain ⟨m0, m1, m2, m3, m4, m5⟩ := h7
    simp only at h1 h2 h3 h4 h5 h6
    refine ⟨h1, h2, h3, h4, h5, h6, ?_⟩
    simp only [MainOk]
    refine ⟨m1, ?_, m5, m4⟩
    have hlen := h3.length_eq
    have hsub := congrArg List.length h1
    have hem := congrArg List.length h2
    simp only [List.length_append, List.length_map] at hlen hsub hem
    have hjs : js = [] := List.length_eq_zero.mp (by omega)
    have hrs : rs = [] := List.length_eq_zero.mp (by omega)
    have hh : held ws = [] := List.length_eq_zero.mp (by omega)
    subst hjs hrs
    simp only [List.append_nil] at h1 h2
    rw [hh, h2] at h3
    rw [h1]
    simpa using h3

theorem inv_reachable (numWorkers : Nat) (lines : List String) (s : Pipeline)
    (h : Reachable numWorkers lines s) : Inv numWorkers lines s := by
  induction h with
  | refl => exact inv_init numWorkers lines
  | tail _ hstep ih => exact inv_step numWorkers lines _ _ ih hstep

/-! ## The reader and the aggregator as functions -/

theorem parseInt_le (t : String) (v : Int) (h : parseInt t = some v) : v ≤ INF := by
  unfold parseInt at h
  split at h
  · cases h
  · simp only at h
    split at h
    · cases h
    · split at h
      · cases h
      · split at h
        · cases h
        · split at h
          · cases h
          · rename_i un _ h1 h2
            simp only [Option.some.injEq] at h
            subst h
            simp only [INF]
            split
            · omega
            · rename_i hneg
              simp only [hneg, Bool.not_false, Bool.true_and, decide_eq_true_eq,
                ge_iff_le, not_le] at h1
              omega

theorem readLine_of_parse (n : Nat) (l : String) (v : Int) (hb : trimSpace l ≠ "")
    (hp : parseInt (trimSpace l) = some v) (h0 : 0 ≤ v) :
    readLine n l = LineAct.submit { lineNo := n, N := v } := by
  have hle := parseInt_le _ _ hp
  unfold readLine
  simp only [hb, if_false, hp]
  rw [if_neg (by omega)]

theorem readLine_blank (n : Nat) (l : String) (hb : trimSpace l = "") :
    readLine n l = LineAct.skip := by
  unfold readLine
  simp only [hb, if_true]

theorem readerLoop_allParse (lines : List String) (h : AllParse lines) :
    ∀ (n : Nat) (acc : List job),
      readerLoop n acc lines = Except.ok (acc ++ jobsFrom n lines) := by
  induction lines with
  | nil => intro n acc; simp [readerLoop, jobsFrom]
  | cons l rest ih =>
    intro n acc
    have hrest : AllParse rest := fun x hx => h x (List.mem_cons_of_mem _ hx)
    unfold readerLoop jobsFrom
    by_cases hb : trimSpace l = ""
    · simp only [readLine_blank _ _ hb, hb, if_true]
      exact ih hrest _ _
    · obtain ⟨v, hp, h0⟩ := h l (List.mem_cons_self _ _) hb
      simp only [readLine_of_parse _ _ _ hb hp h0, hb, if_false, hp]
      rw [ih hrest]
      simp

theorem jobsFrom_counts (lines : List String) (n : Nat) :
    ((jobsFrom n lines).map (fun j => (minBoxesForN j.N).1)).sum = sumCounts lines := by
  induction lines generalizing n with
  | nil => rfl
  | cons l rest ih =>
    unfold jobsFrom
    simp only [sumCounts, List.map_cons, List.sum_cons] at ih ⊢
    by_cases hb : trimSpace l = ""
    · have hl : lineCount l = 0 := by unfold lineCount; simp only [hb, if_true]
      rw [hl, zero_add]
      simp only [hb, if_true]
      exact ih (n + 1)
    · cases hp : parseInt (trimSpace l) with
      | none =>
        have hl : lineCount l = 0 := by unfold lineCount; simp only [hb, if_false, hp]
        rw [hl, zero_add]
        simp only [hb, if_false]
        exact ih (n + 1)
      | some v =>
        have hl : lineCount l = (minBoxesForN v).1 := by
          unfold lineCount; simp only [hb, if_false, hp]
        rw [hl]
        simp only [hb, if_false, List.map_cons, List.sum_cons, ih (n + 1)]

theorem jobsFrom_feasible (lines : List String) (h : AllFeasible lines) (n : Nat) :
    ∀ j ∈ jobsFrom n lines, (minBoxesForN j.N).2 = true := by
  induction lines generalizing n with
  | nil => intro j hj; simp [jobsFrom] at hj
  | cons l rest ih =>
    have hrest : AllFeasible rest := fun x hx => h x (List.mem_cons_of_mem _ hx)
    intro j hj
    unfold jobsFrom at hj
    by_cases hb : trimSpace l = ""
    · simp only [hb, if_true] at hj
      exact ih hrest _ j hj
    · obtain ⟨v, hp, _, hf⟩ := h l (List.mem_cons_self _ _) hb
      simp only [hb, if_false, hp, List.mem_cons] at hj
      rcases hj with rfl | hj
      · exact hf
      · exact ih hrest _ j hj

theorem wrapInt_add_wrap (a b : Int) : wrapInt (wrapInt a + b) = wrapInt (a + b) := by
  unfold wrapInt
  omega

theorem wrapInt_of_range (x : Int) (h0 : 0 ≤ x) (h1 : x ≤ INF) : wrapInt x = x := by
  unfold wrapInt
  simp only [INF] at h1
  omega

theorem foldl_wrap (rs : List result) (t : Int) :
    rs.foldl (fun t r => wrapInt (t + r.minBoxes)) (wrapInt t) =
      wrapInt (t + (rs.map (fun r => r.minBoxes)).sum) := by
  induction rs generalizing t with
  | nil => simp
  | cons r rs ih =>
    simp only [List.foldl_cons, List.map_cons, List.sum_cons]
    rw [wrapInt_add_wrap, ih]
    congr 1
    omega

theorem aggTotal_eq (rs : List result) :
    aggTotal rs = wrapInt ((rs.map (fun r => r.minBoxes)).sum) := by
  have h := foldl_wrap rs 0
  have h0 : wrapInt 0 = 0 := by decide
  rw [h0, zero_add] at h
  exact h

theorem aggLoop_eq (rs : List result) (hok : ∀ r ∈ rs, r.ok = true) (t : Int) :
    aggLoop t rs = Outcome.total (rs.foldl (fun t r => wrapInt (t + r.minBoxes)) t) := by
  induction rs generalizing t with
  | nil => rfl
  | cons r rs ih =>
    unfold aggLoop
    simp only [hok r (List.mem_cons_self _ _), if_true, List.foldl_cons]
    exact ih (fun x hx => hok x (List.mem_cons_of_mem _ hx)) _

/-- A run that prints a total has read the whole input without a diagnostic,
every job was feasible, and the total is the wrapped sum of the jobs'
counts. -/
theorem exit_total (numWorkers : Nat) (lines : List String) (s : Pipeline) (t : Int)
    (hr : Reachable numWorkers lines s) (hm : s.main = MainSt.exited (Outcome.total t)) :
    ∃ js, readerLoop 0 [] lines = Except.ok js ∧
      (∀ j ∈ js, (minBoxesForN j.N).2 = true) ∧
      s.consumed.length = js.length ∧ s.submitted = js ∧
      t = wrapInt ((js.map (fun j => (minBoxesForN j.N).1)).sum) := by
  have hinv := (inv_reachable numWorkers lines s hr).main_ok
  unfold MainOk at hinv
  rw [hm] at hinv
  simp only at hinv
  obtain ⟨h1, h2, h3, h4⟩ := hinv
  refine ⟨s.submitted, h1, ?_, by simpa using h2.length_eq, rfl, ?_⟩
  · intro j hj
    have : workerBody j ∈ s.consumed := h2.mem_iff.mpr (List.mem_map_of_mem _ hj)
    exact h3 _ this
  · rw [h4, aggTotal_eq]
    have := (h2.map (fun r => r.minBoxes)).sum_eq
    rw [this]
    simp [List.map_map, Function.comp_def, workerBody]

/-! ## The reader blocked behind full buffers -/

/-- While the main goroutine reads, the jobs sent are all in the buffer of
`jobs`, in the hands of a worker, or in the buffer of `results`. -/
theorem reading_bound (numWorkers : Nat) (lines : List String) (s : Pipeline)
    (rest : List String) (lineNo sent : Nat) (hinv : Inv numWorkers lines s)
    (hm : s.main = MainSt.reading rest lineNo sent) :
    sent = s.submitted.length ∧ sent ≤ jobsCap + numWorkers + resultsCap := by
  obtain ⟨h1, h2, h3, h4, h5, h6, h7⟩ := hinv
  unfold MainOk at h7
  rw [hm] at h7
  simp only at h7
  obtain ⟨_, m2, m3, _, _⟩ := h7
  have hlen := h3.length_eq
  have hsub := congrArg List.length h1
  have hem := congrArg List.length h2
  have hheld := held_length_le s.workers
  rw [m2] at hem
  simp only [List.length_append, List.length_map, List.length_nil] at hlen hsub hem
  exact ⟨m3, by omega⟩

theorem reading_forever (numWorkers K : Nat) (lines : List String)
    (hK : jobsCap + numWorkers + resultsCap < K) (hjob : JobPrefix K lines)
    (s : Pipeline) (hr : Reachable numWorkers lines s) :
    ∃ rest lineNo, s.main = MainSt.reading rest lineNo lineNo ∧
      s.submitted.length = lineNo ∧ lineNo ≤ jobsCap + numWorkers + resultsCap := by
  induction hr with
  | refl =>
    exact ⟨lines, 0, rfl, rfl, Nat.zero_le _⟩
  | @tail s1 s2 hreach hstep ih =>
    have hinv1 := inv_reachable numWorkers lines s1 hreach
    have hinv2 := inv_step numWorkers lines s1 s2 hinv1 hstep
    obtain ⟨rest0, ln, hm, _, hle⟩ := ih
    have hhead : ∀ l rest', rest0 = l :: rest' →
        ∃ j, readLine (ln + 1) l = LineAct.submit j := by
      intro l rest' hrest
      have hmo := hinv1.main_ok
      unfold MainOk at hmo
      rw [hm] at hmo
      simp only at hmo
      obtain ⟨_, _, _, _, pre, hpre, hlen, _⟩ := hmo
      obtain ⟨l', j, hl', hj⟩ := hjob ln (by omega)
      have : lines[ln]? = some l := by
        rw [hpre, hrest, hlen, List.getElem?_append_right (le_refl _)]
        simp
      rw [this] at hl'
      cases hl'
      exact ⟨j, hj⟩
    have hne : rest0 ≠ [] := by
      intro hnil
      have hmo := hinv1.main_ok
      unfold MainOk at hmo
      rw [hm] at hmo
      simp only at hmo
      obtain ⟨_, _, _, _, pre, hpre, hlen, _⟩ := hmo
      obtain ⟨l', j, hl', _⟩ := hjob ln (by omega)
      rw [hpre, hnil, hlen] at hl'
      simp at hl'
    cases hstep with
    | readSkip l rest lineNo sent js cl ws rs sub tk em co h =>
      simp only [MainSt.reading.injEq] at hm
      obtain ⟨h1, h2, h3⟩ := hm
      subst h2
      obtain ⟨j, hj⟩ := hhead l rest h1.symm
      rw [hj] at h
      cases h
    | readAbort l rest lineNo sent o js cl ws rs sub tk em co h =>
      simp only [MainSt.reading.injEq] at hm
      obtain ⟨h1, h2, h3⟩ := hm
      subst h2
      obtain ⟨j, hj⟩ := hhead l rest h1.symm
      rw [hj] at h
      cases h
    | readSubmit l rest lineNo sent j js cl ws rs sub tk em co h hroom =>
      simp only [MainSt.reading.injEq] at hm
      obtain ⟨h1, h2, h3⟩ := hm
      subst h2 h3
      have hb := reading_bound numWorkers lines _ rest (sent + 1) (sent + 1) hinv2 rfl
      exact ⟨rest, sent + 1, rfl, hb.1.symm, hb.2⟩
    | closeJobs lineNo sent js cl ws rs sub tk em co =>
      simp only [MainSt.reading.injEq] at hm
      exact absurd hm.1.symm hne
    | workerTake m j js cl ws1 ws2 rs sub tk em co halive =>
      simp only at hm
      have hb := reading_bound numWorkers lines _ rest0 ln ln hinv2 hm
      exact ⟨rest0, ln, hm, hb.1.symm, hle⟩
    | workerSend m r js cl ws1 ws2 rs sub tk em co halive hroom =>
      simp only at hm
      have hb := reading_bound numWorkers lines _ rest0 ln ln hinv2 hm
      exact ⟨rest0, ln, hm, hb.1.symm, hle⟩
    | workerReturn m ws1 ws2 rs sub tk em co halive =>
      simp only at hm
      have hb := reading_bound numWorkers lines _ rest0 ln ln hinv2 hm
      exact ⟨rest0, ln, hm, hb.1.symm, hle⟩
    | aggAdd i sent t r js cl ws rs sub tk em co hi hok => cases hm
    | aggAbort i sent t r js cl ws rs sub tk em co hi hok => cases hm
    | aggDone i sent t js cl ws rs sub tk em co hi => cases hm

theorem readLine_five (n : Nat) : readLine n "5" = LineAct.submit { lineNo := n, N := 5 } :=
  readLine_of_parse n "5" 5 (by decide) (by decide) (by decide)

theorem jobPrefix_fives (K : Nat) (tail : List String) :
    JobPrefix K (List.replicate K "5" ++ tail) := by
  intro i hi
  refine ⟨"5", _, ?_, readLine_five (i + 1)⟩
  rw [List.getElem?_append_left (by simpa using hi)]
  simp [List.getElem?_replicate, hi]

/-! ## Every run is finite -/

theorem measure_step (s s' : Pipeline) (h : Step s s') : measure s' < measure s := by
  cases h <;>
    simp only [measure, mainWeight, workerWeight, List.length_cons, List.length_append,
      List.length_nil, List.map_append, List.map_cons, List.sum_append, List.sum_cons] <;>
    omega

/-- From every state some run leads to a state without an enabled step. -/
theorem exists_final (n : Nat) :
    ∀ s : Pipeline, measure s ≤ n →
      ∃ s', Relation.ReflTransGen Step s s' ∧ ∀ s'', ¬ Step s' s'' := by
  induction n with
  | zero =>
    intro s hs
    refine ⟨s, Relation.ReflTransGen.refl, ?_⟩
    intro s'' hstep
    have := measure_step s s'' hstep
    omega
  | succ n ih =>
    intro s hs
    by_cases hex : ∃ s1, Step s s1
    · obtain ⟨s1, hstep⟩ := hex
      have := measure_step s s1 hstep
      obtain ⟨s', hr, hfin⟩ := ih s1 (by omega)
      exact ⟨s', Relation.ReflTransGen.head hstep hr, hfin⟩
    · exact ⟨s, Relation.ReflTransGen.refl, fun s'' h => hex ⟨s'', h⟩⟩

/-! ## Runs with a single job line -/

/-- The run of one worker on a single line that becomes a feasible job. -/
theorem single_run (l : String) (j : job) (h : readLine 1 l = LineAct.submit j)
    (hok : (workerBody j).ok = true) :
    Reachable 1 [l]
      ⟨MainSt.exited (Outcome.total (wrapInt (0 + (workerBody j).minBoxes))), [], true,
        [WorkerSt.idle], [], [j], [j], [workerBody j], [workerBody j]⟩ := by
  have s1 : Step (init 1 [l])
      ⟨MainSt.reading [] 1 1, [j], false, [WorkerSt.idle], [], [j], [], [], []⟩ :=
    Step.readSubmit l [] 0 0 j [] false [WorkerSt.idle] [] [] [] [] [] h (by decide)
  have s2 := Step.closeJobs 1 1 [j] false [WorkerSt.idle] [] [j] [] [] []
  have s3 := Step.workerTake (MainSt.aggregating 0 1 0) j [] true [] [] [] [j] [] [] []
    (fun o ho => by cases ho)
  have s4 := Step.workerSend (MainSt.aggregating 0 1 0) (workerBody j) [] true [] [] []
    [j] [j] [] [] (fun o ho => by cases ho) (by decide)
  have s5 := Step.aggAdd 0 1 0 (workerBody j) [] true [WorkerSt.idle] [] [j] [j]
    [workerBody j] [] (by decide) hok
  have s6 := Step.aggDone 1 1 (wrapInt (0 + (workerBody j).minBoxes)) [] true
    [WorkerSt.idle] [] [j] [j] [workerBody j] [workerBody j] (by decide)
  exact (((((Relation.ReflTransGen.single s1).tail s2).tail s3).tail s4).tail s5).tail s6

/-- The run of one worker on a single line that becomes an infeasible job. -/
theorem single_run_infeasible (l : String) (j : job) (h : readLine 1 l = LineAct.submit j)
    (hok : (workerBody j).ok = false) :
    Reachable 1 [l]
      ⟨MainSt.exited (Outcome.infeasible (workerBody j).lineNo), [], true,
        [WorkerSt.idle], [], [j], [j], [workerBody j], [workerBody j]⟩ := by
  have s1 : Step (init 1 [l])
      ⟨MainSt.reading [] 1 1, [j], false, [WorkerSt.idle], [], [j], [], [], []⟩ :=
    Step.readSubmit l [] 0 0 j [] false [WorkerSt.idle] [] [] [] [] [] h (by decide)
  have s2 := Step.closeJobs 1 1 [j] false [WorkerSt.idle] [] [j] [] [] []
  have s3 := Step.workerTake (MainSt.aggregating 0 1 0) j [] true [] [] [] [j] [] [] []
    (fun o ho => by cases ho)
  have s4 := Step.workerSend (MainSt.aggregating 0 1 0) (workerBody j) [] true [] [] []
    [j] [j] [] [] (fun o ho => by cases ho) (by decide)
  have s5 := Step.aggAbort 0 1 0 (workerBody j) [] true [WorkerSt.idle] [] [j] [j]
    [workerBody j] [] (by decide) hok
  exact ((((Relation.ReflTransGen.single s1).tail s2).tail s3).tail s4).tail s5

/-! ## The contract of the pipeline -/

theorem allParse_of_allFeasible (lines : List String) (h : AllFeasible lines) :
    AllParse lines := by
  intro l hl hb
  obtain ⟨n, hp, h0, _⟩ := h l hl hb
  exact ⟨n, hp, h0⟩

theorem lineCount_nonneg (l : String)
    (h : trimSpace l ≠ "" →
      ∃ n, parseInt (trimSpace l) = some n ∧ 0 ≤ n ∧ (minBoxesForN n).2 = true) :
    0 ≤ lineCount l := by
  unfold lineCount
  by_cases hb : trimSpace l = ""
  · simp only [hb, if_true, le_refl]
  · obtain ⟨n, hp, h0, hf⟩ := h hb
    simp only [hb, if_false, hp]
    obtain ⟨a, b, c, d, ⟨ha, hb', hc, hd, _⟩, hsum⟩ :=
      (minBoxesForN_char n h0 (parseInt_le _ _ hp)).1 hf
    omega

theorem sumCounts_nonneg (lines : List String) (h : AllFeasible lines) :
    0 ≤ sumCounts lines := by
  induction lines with
  | nil => decide
  | cons l rest ih =>
    have h1 := lineCount_nonneg l (h l (List.mem_cons_self _ _))
    have h2 := ih (fun x hx => h x (List.mem_cons_of_mem _ hx))
    simp only [sumCounts, List.map_cons, List.sum_cons] at h2 ⊢
    omega

/-- On an input whose non-blank lines all parse to feasible targets, the only
way a run ends is the printed total, the wrapped sum of the counts. -/
theorem allFeasible_exit (numWorkers : Nat) (lines : List String) (s : Pipeline) (o : Outcome)
    (hf : AllFeasible lines) (hr : Reachable numWorkers lines s)
    (hm : s.main = MainSt.exited o) :
    o = Outcome.total (wrapInt (sumCounts lines)) ∧
    (sumCounts lines ≤ INF → o = Outcome.total (sumCounts lines)) := by
  have hread := readerLoop_allParse lines (allParse_of_allFeasible lines hf) 0 []
  simp only [List.nil_append] at hread
  have hfirst : o = Outcome.total (wrapInt (sumCounts lines)) := by
    cases o with
    | total t =>
      obtain ⟨js, h1, _, _, _, h3⟩ := exit_total numWorkers lines s t hr hm
      rw [hread] at h1
      cases h1
      rw [h3, jobsFrom_counts]
    | infeasible ln =>
      have hinv := (inv_reachable numWorkers lines s hr).main_ok
      unfold MainOk at hinv
      rw [hm] at hinv
      simp only at hinv
      obtain ⟨h1, j, hj, _, hbad⟩ := hinv
      rw [hread] at h1
      rw [← Except.ok.inj h1] at hj
      have := jobsFrom_feasible lines hf 0 j hj
      simp only [workerBody] at hbad
      rw [this] at hbad
      cases hbad
    | invalidLine ln line =>
      have hinv := (inv_reachable numWorkers lines s hr).main_ok
      unfold MainOk at hinv
      rw [hm] at hinv
      simp only at hinv
      have h1 := hinv.1
      rw [hread] at h1
      cases h1
    | outOfRange ln v =>
      have hinv := (inv_reachable numWorkers lines s hr).main_ok
      unfold MainOk at hinv
      rw [hm] at hinv
      simp only at hinv
      have h1 := hinv.1
      rw [hread] at h1
      cases h1
  refine ⟨hfirst, fun hle => ?_⟩
  rw [hfirst, wrapInt_of_range _ (sumCounts_nonneg lines hf) hle]

/-- In the step relation, for every number of workers and every input in
which every non-blank trimmed line parses as a non-negative integer whose
target is feasible, an exit of the main goroutine is the printed total, and
the printed total is the sum over the non-blank lines of the count of
`minBoxesForN`, converted to Go's 64-bit `int`: the sum itself whenever it is
at most `INF`. -/
theorem pipeline_total (numWorkers : Nat) (lines : List String) (s : Pipeline) (o : Outcome)
    (hf : AllFeasible lines) (hr : Reachable numWorkers lines s)
    (hm : s.main = MainSt.exited o) :
    o = Outcome.total (wrapInt (sumCounts lines)) ∧
    (sumCounts lines ≤ INF → o = Outcome.total (sumCounts lines)) :=
  allFeasible_exit numWorkers lines s o hf hr hm

theorem allFeasible_single (l : String) (n : Int) (hp : parseInt (trimSpace l) = some n)
    (h0 : 0 ≤ n) (hf : (minBoxesForN n).2 = true) : AllFeasible [l] := by
  intro x hx _
  simp only [List.mem_singleton] at hx
  subst hx
  exact ⟨n, hp, h0, hf⟩

theorem pipeline_total_witness :
    Outcome.total 2 = Outcome.total (wrapInt (sumCounts ["64"])) ∧
    (sumCounts ["64"] ≤ INF → Outcome.total 2 = Outcome.total (sumCounts ["64"])) :=
  pipeline_total 1 ["64"] _ (Outcome.total 2)
    (allFeasible_single "64" 64 (by decide) (by decide) (by decide))
    (single_run "64" { lineNo := 1, N := 64 } (by decide) (by decide)) rfl

theorem blocking_cap (numWorkers : Nat) :
    jobsCap + numWorkers + resultsCap < jobsCap + numWorkers + resultsCap + 1 :=
  Nat.lt_succ_self _

/-- On `blockingInput` followed by any lines, the main goroutine never leaves
the reader loop and never sends the last job of `blockingInput`. -/
theorem blocking_reading (numWorkers : Nat) (tail : List String) (s : Pipeline)
    (hr : Reachable numWorkers (blockingInput numWorkers ++ tail) s) :
    ∃ rest lineNo, s.main = MainSt.reading rest lineNo lineNo ∧
      s.submitted.length = lineNo ∧ lineNo ≤ jobsCap + numWorkers + resultsCap :=
  reading_forever numWorkers _ _ (blocking_cap numWorkers)
    (jobPrefix_fives _ tail) s hr

theorem allFeasible_replicate (k : Nat) (l : String) (n : Int)
    (hp : parseInt (trimSpace l) = some n) (h0 : 0 ≤ n) (hf : (minBoxesForN n).2 = true) :
    AllFeasible (List.replicate k l) := by
  intro x hx _
  rw [List.eq_of_mem_replicate hx]
  exact ⟨n, hp, h0, hf⟩

theorem minBoxesForN_INF :
    (minBoxesForN INF).2 = true ∧ INF ≤ 59 * (minBoxesForN INF).1 := by
  obtain ⟨hsound, hall⟩ := minBoxesForN_char INF (by decide) (le_refl _)
  have hd : Decomp INF 3 0 0 1844674407370955126 := by decide
  have hf := (hall _ _ _ _ hd).1
  obtain ⟨a, b, c, d, ⟨ha, hb, hc, hd', hsum⟩, hcnt⟩ := hsound hf
  exact ⟨hf, by omega⟩

theorem lineCount_of_parse (l : String) (n : Int) (hb : trimSpace l ≠ "")
    (hp : parseInt (trimSpace l) = some n) : lineCount l = (minBoxesForN n).1 := by
  unfold lineCount
  rw [if_neg hb, hp]

theorem sumCounts_overflow : INF < sumCounts overflowInput := by
  have hl : lineCount "9223372036854775807" = (minBoxesForN INF).1 :=
    lineCount_of_parse "9223372036854775807" INF (by decide) (by decide)
  have h := minBoxesForN_INF.2
  have hs : sumCounts overflowInput = 60 * lineCount "9223372036854775807" := by
    simp only [sumCounts, overflowInput, List.map_replicate, List.sum_replicate,
      nsmul_eq_mul, Nat.cast_ofNat]
  rw [hs, hl]
  generalize (minBoxesForN INF).1 = c at h ⊢
  simp only [INF] at h ⊢
  omega

theorem allFeasible_overflowInput : AllFeasible overflowInput :=
  allFeasible_replicate 60 "9223372036854775807" INF (by decide) (by decide)
    minBoxesForN_INF.1

/-- Two inputs whose non-blank lines all parse to feasible targets: with 8
workers and an input of 8201 lines `5` the main goroutine never exits; and on
sixty lines `9223372036854775807` no run, for any number of workers, prints
the sum of the counts, which exceeds `INF`. -/
theorem pipeline_total_counterexample :
    (AllFeasible (blockingInput 8) ∧ (blockingInput 8).length = 8201 ∧
      ∀ s, Reachable 8 (blockingInput 8) s → ∀ o, s.main ≠ MainSt.exited o) ∧
    (AllFeasible overflowInput ∧
      ∀ numWorkers s, Reachable numWorkers overflowInput s →
        s.main ≠ MainSt.exited (Outcome.total (sumCounts overflowInput))) := by
  refine ⟨⟨allFeasible_replicate _ "5" 5 (by decide) (by decide) (by decide),
      by rw [blockingInput, List.length_replicate]; decide, ?_⟩,
    ⟨allFeasible_overflowInput, ?_⟩⟩
  · intro s hr o hm
    have hr' : Reachable 8 (blockingInput 8 ++ []) s := by
      rw [List.append_nil]; exact hr
    obtain ⟨rest, ln, hread, _⟩ := blocking_reading 8 [] s hr'
    rw [hread] at hm
    cases hm
  · intro numWorkers s hr hm
    have h := (allFeasible_exit numWorkers overflowInput s _ allFeasible_overflowInput
      hr hm).1
    have hlt := sumCounts_overflow
    generalize sumCounts overflowInput = x at h hlt
    have hx : x = wrapInt x := by injection h
    unfold wrapInt at hx
    simp only [INF] at hlt
    omega

/-- C4, at a failing input: with any number of workers, on the input of
`jobsCap + numWorkers + resultsCap + 1` lines `5` followed by the line `3`
(every line parses, the target 3 is infeasible) no run ever ends: the main
goroutine stays in the reader loop, so no line number is reported. -/
theorem infeasible_never_reported (numWorkers : Nat) (s : Pipeline)
    (hr : Reachable numWorkers (blockingInput numWorkers ++ ["3"]) s) :
    AllParse (blockingInput numWorkers ++ ["3"]) ∧
    readLine (jobsCap + numWorkers + resultsCap + 2) "3" =
      LineAct.submit { lineNo := jobsCap + numWorkers + resultsCap + 2, N := 3 } ∧
    (minBoxesForN 3).2 = false ∧
    ∀ o, s.main ≠ MainSt.exited o := by
  refine ⟨?_, readLine_of_parse _ "3" 3 (by decide) (by decide) (by decide), by decide, ?_⟩
  · intro l hl _
    rcases List.mem_append.mp hl with h | h
    · rw [List.eq_of_mem_replicate h]
      exact ⟨5, by decide, by decide⟩
    · rw [List.mem_singleton.mp h]
      exact ⟨3, by decide, by decide⟩
  · intro o hm
    obtain ⟨rest, ln, hread, _⟩ := blocking_reading numWorkers ["3"] s hr
    rw [hread] at hm
    cases hm

theorem infeasible_never_reported_witness :
    AllParse (blockingInput 8 ++ ["3"]) ∧
    readLine (jobsCap + 8 + resultsCap + 2) "3" =
      LineAct.submit { lineNo := jobsCap + 8 + resultsCap + 2, N := 3 } ∧
    (minBoxesForN 3).2 = false ∧
    ∀ o, (init 8 (blockingInput 8 ++ ["3"])).main ≠ MainSt.exited o :=
  infeasible_never_reported 8 (init 8 (blockingInput 8 ++ ["3"])) Relation.ReflTransGen.refl

/-- C5, at a failing input: with any number of workers, on the input of
`jobsCap + numWorkers + resultsCap + 1` lines `5` followed by the line `abc`
(which the reader would report as invalid) no run ever ends: the main
goroutine never reaches the line `abc`, so no diagnostic is printed. -/
theorem invalid_never_reported (numWorkers : Nat) (s : Pipeline)
    (hr : Reachable numWorkers (blockingInput numWorkers ++ ["abc"]) s) :
    readLine (jobsCap + numWorkers + resultsCap + 2) "abc" =
      LineAct.abort (Outcome.invalidLine (jobsCap + numWorkers + resultsCap + 2) "abc") ∧
    ∀ o, s.main ≠ MainSt.exited o := by
  refine ⟨?_, ?_⟩
  · unfold readLine
    have h1 : trimSpace "abc" = "abc" := by decide
    have h2 : parseInt "abc" = none := by decide
    simp only [h1, h2]
    rw [if_neg (by decide)]
  · intro o hm
    obtain ⟨rest, ln, hread, _⟩ := blocking_reading numWorkers ["abc"] s hr
    rw [hread] at hm
    cases hm

theorem invalid_never_reported_witness :
    readLine (jobsCap + 8 + resultsCap + 2) "abc" =
      LineAct.abort (Outcome.invalidLine (jobsCap + 8 + resultsCap + 2) "abc") ∧
    ∀ o, (init 8 (blockingInput 8 ++ ["abc"])).main ≠ MainSt.exited o :=
  invalid_never_reported 8 (init 8 (blockingInput 8 ++ ["abc"])) Relation.ReflTransGen.refl

theorem jobsFrom_fives (k n : Nat) : (jobsFrom n (List.replicate k "5")).length = k := by
  induction k generalizing n with
  | zero => rfl
  | succ k ih =>
    have h1 : trimSpace "5" ≠ "" := by decide
    have h2 : parseInt (trimSpace "5") = some 5 := by decide
    simp only [List.replicate_succ, jobsFrom, h1, if_false, h2, List.length_cons, ih]

/-- C6, at a failing input: with any number of workers, on the input of
`jobsCap + numWorkers + resultsCap + 1` lines `5` (all non-blank, all parse,
so one job per line is due) the reader never submits more than
`jobsCap + numWorkers + resultsCap` jobs: the last line never gets its job. -/
theorem reader_never_submits_all (numWorkers : Nat) (s : Pipeline)
    (hr : Reachable numWorkers (blockingInput numWorkers) s) :
    AllParse (blockingInput numWorkers) ∧
    (jobsFrom 0 (blockingInput numWorkers)).length = jobsCap + numWorkers + resultsCap + 1 ∧
    s.submitted.length ≤ jobsCap + numWorkers + resultsCap := by
  refine ⟨?_, jobsFrom_fives _ 0, ?_⟩
  · intro l hl _
    rw [List.eq_of_mem_replicate hl]
    exact ⟨5, by decide, by decide⟩
  · have hr' : Reachable numWorkers (blockingInput numWorkers ++ []) s := by simpa using hr
    obtain ⟨rest, ln, _, hsub, hle⟩ := blocking_reading numWorkers [] s hr'
    omega

theorem reader_never_submits_all_witness :
    AllParse (blockingInput 8) ∧
    (jobsFrom 0 (blockingInput 8)).length = jobsCap + 8 + resultsCap + 1 ∧
    (init 8 (blockingInput 8)).submitted.length ≤ jobsCap + 8 + resultsCap :=
  reader_never_submits_all 8 (init 8 (blockingInput 8)) Relation.ReflTransGen.refl

/-- C8, at a failing input: with any number of workers, on the input of
`jobsCap + numWorkers + resultsCap + 1` lines `5` some run reaches a state in
which the main goroutine has not exited (it is still in the reader loop) and
no goroutine has an enabled step. -/
theorem pipeline_stuck (numWorkers : Nat) :
    ∃ s, Reachable numWorkers (blockingInput numWorkers) s ∧
      (∀ o, s.main ≠ MainSt.exited o) ∧ ∀ s', ¬ Step s s' := by
  obtain ⟨s, hr, hfin⟩ :=
    exists_final _ (init numWorkers (blockingInput numWorkers)) (le_refl _)
  refine ⟨s, hr, ?_, hfin⟩
  intro o hm
  have hr' : Reachable numWorkers (blockingInput numWorkers ++ []) s := by simpa using hr
  obtain ⟨rest, ln, hread, _⟩ := blocking_reading numWorkers [] s hr'
  rw [hread] at hm
  cases hm

theorem aggLoop_perm (rs rs' : List result) (hperm : rs.Perm rs')
    (hok : ∀ r ∈ rs, r.ok = true) : aggLoop 0 rs = aggLoop 0 rs' := by
  have hok' : ∀ r ∈ rs', r.ok = true := fun r hr => hok r (hperm.mem_iff.mpr hr)
  rw [aggLoop_eq rs hok 0, aggLoop_eq rs' hok' 0]
  have h1 := aggTotal_eq rs
  have h2 := aggTotal_eq rs'
  unfold aggTotal at h1 h2
  rw [h1, h2, (hperm.map (fun r => r.minBoxes)).sum_eq]

theorem total_unique (w1 w2 : Nat) (lines : List String) (s1 s2 : Pipeline) (t1 t2 : Int)
    (h1 : Reachable w1 lines s1) (h2 : Reachable w2 lines s2)
    (e1 : s1.main = MainSt.exited (Outcome.total t1))
    (e2 : s2.main = MainSt.exited (Outcome.total t2)) : t1 = t2 := by
  obtain ⟨js1, r1, _, _, _, q1⟩ := exit_total w1 lines s1 t1 h1 e1
  obtain ⟨js2, r2, _, _, _, q2⟩ := exit_total w2 lines s2 t2 h2 e2
  rw [r1] at r2
  have := Except.ok.inj r2
  subst this
  rw [q1, q2]

/-- The aggregator's outcome is the same for every arrival order of feasible
results: aggregating a permutation of a list of feasible results gives the
same total.  And, for a fixed input, any two runs that print a total print
the same total, whatever their numbers of workers and their interleavings. -/
theorem aggregate_order_invariant (rs rs' : List result) (hperm : rs.Perm rs')
    (hok : ∀ r ∈ rs, r.ok = true) :
    aggLoop 0 rs = aggLoop 0 rs' ∧
    ∀ (w1 w2 : Nat) (lines : List String) (s1 s2 : Pipeline) (t1 t2 : Int),
      Reachable w1 lines s1 → Reachable w2 lines s2 →
      s1.main = MainSt.exited (Outcome.total t1) →
      s2.main = MainSt.exited (Outcome.total t2) → t1 = t2 :=
  ⟨aggLoop_perm rs rs' hperm hok, total_unique⟩

theorem aggregate_order_invariant_witness :
    aggLoop 0 [⟨1, 1, true⟩, ⟨2, 4, true⟩, ⟨3, 2, true⟩] =
      aggLoop 0 [⟨3, 2, true⟩, ⟨1, 1, true⟩, ⟨2, 4, true⟩] ∧
    ∀ (w1 w2 : Nat) (lines : List String) (s1 s2 : Pipeline) (t1 t2 : Int),
      Reachable w1 lines s1 → Reachable w2 lines s2 →
      s1.main = MainSt.exited (Outcome.total t1) →
      s2.main = MainSt.exited (Outcome.total t2) → t1 = t2 :=
  aggregate_order_invariant _ _ (by decide) (by decide)

/-- C9: in every reachable state, (1) the results produced by workers (held
or sent) are no more than the jobs submitted; (2) the jobs received by
workers followed by the jobs still buffered are exactly the jobs submitted,
so each submitted job is received at most once; (3) the results produced are,
up to order, one result per received job, the result `workerBody` computes
for it, and the results sent are those consumed followed by those still
buffered; (4) every result produced carries the line number of a submitted
job and `minBoxesForN` of its target; (5) when the total has been printed,
as many results were consumed as jobs were submitted. -/
theorem pipeline_conservation (numWorkers : Nat) (lines : List String) (s : Pipeline)
    (hr : Reachable numWorkers lines s) :
    (held s.workers ++ s.emitted).length ≤ s.submitted.length ∧
    s.submitted = s.taken ++ s.jobs ∧
    ((held s.workers ++ s.emitted).Perm (s.taken.map workerBody) ∧
      s.emitted = s.consumed ++ s.results) ∧
    (∀ r ∈ held s.workers ++ s.emitted, ∃ j ∈ s.submitted,
      r.lineNo = j.lineNo ∧ r.minBoxes = (minBoxesForN j.N).1 ∧
      r.ok = (minBoxesForN j.N).2) ∧
    (∀ t, s.main = MainSt.exited (Outcome.total t) →
      s.consumed.length = s.submitted.length) := by
  have hinv := inv_reachable numWorkers lines s hr
  refine ⟨?_, hinv.sub_eq, ⟨hinv.perm, hinv.em_eq⟩, ?_, ?_⟩
  · have h1 := hinv.perm.length_eq
    have h2 := congrArg List.length hinv.sub_eq
    simp only [List.length_append, List.length_map] at h1 h2 ⊢
    omega
  · intro r hmem
    obtain ⟨j, hj, hjr⟩ := List.mem_map.mp (hinv.perm.mem_iff.mp hmem)
    refine ⟨j, ?_, ?_, ?_, ?_⟩
    · rw [hinv.sub_eq]; exact List.mem_append_left _ hj
    · rw [← hjr]; rfl
    · rw [← hjr]; rfl
    · rw [← hjr]; rfl
  · intro t hm
    obtain ⟨js, _, _, hlen, hsub, _⟩ := exit_total numWorkers lines s t hr hm
    rw [hlen, hsub]

theorem pipeline_conservation_witness :
    (held [WorkerSt.idle] ++ [workerBody ⟨1, 64⟩]).length ≤ [(⟨1, 64⟩ : job)].length ∧
    [(⟨1, 64⟩ : job)] = [⟨1, 64⟩] ++ [] ∧
    ((held [WorkerSt.idle] ++ [workerBody ⟨1, 64⟩]).Perm ([(⟨1, 64⟩ : job)].map workerBody) ∧
      [workerBody ⟨1, 64⟩] = [workerBody ⟨1, 64⟩] ++ []) ∧
    (∀ r ∈ held [WorkerSt.idle] ++ [workerBody ⟨1, 64⟩], ∃ j ∈ [(⟨1, 64⟩ : job)],
      r.lineNo = j.lineNo ∧ r.minBoxes = (minBoxesForN j.N).1 ∧
      r.ok = (minBoxesForN j.N).2) ∧
    (∀ t, MainSt.exited (Outcome.total (wrapInt (0 + (workerBody ⟨1, 64⟩).minBoxes))) =
        MainSt.exited (Outcome.total t) →
      [workerBody ⟨1, 64⟩].length = [(⟨1, 64⟩ : job)].length) :=
  pipeline_conservation 1 ["64"] _
    (single_run "64" { lineNo := 1, N := 64 } (by decide) (by decide))

/-! ## The jobs of an input -/

theorem jobsFrom_append (p q : List String) :
    ∀ n, jobsFrom n (p ++ q) = jobsFrom n p ++ jobsFrom (n + p.length) q := by
  induction p with
  | nil => intro n; simp [jobsFrom]
  | cons l p ih =>
    intro n
    have hlen : n + (l :: p).length = n + 1 + p.length := by
      simp only [List.length_cons]; omega
    rw [hlen]
    simp only [List.cons_append, jobsFrom]
    by_cases hb : trimSpace l = ""
    · simp only [hb, if_true]
      exact ih _
    · simp only [hb, if_false]
      cases parseInt (trimSpace l) with
      | none => exact ih _
      | some v =>
        simp only [List.cons_append, List.cons.injEq, true_and]
        exact ih _

theorem jobsFrom_mem_iff (lines : List String) :
    ∀ (n : Nat) (j : job), j ∈ jobsFrom n lines ↔
      ∃ l, n + 1 ≤ j.lineNo ∧ lines[j.lineNo - (n + 1)]? = some l ∧
        trimSpace l ≠ "" ∧ parseInt (trimSpace l) = some j.N := by
  induction lines with
  | nil => intro n j; simp [jobsFrom]
  | cons l rest ih =>
    intro n j
    have hrec : j ∈ jobsFrom (n + 1) rest ↔
        ∃ x, n + 1 + 1 ≤ j.lineNo ∧ (l :: rest)[j.lineNo - (n + 1)]? = some x ∧
          trimSpace x ≠ "" ∧ parseInt (trimSpace x) = some j.N := by
      rw [ih (n + 1) j]
      constructor
      · rintro ⟨x, h1, h2, h3, h4⟩
        refine ⟨x, h1, ?_, h3, h4⟩
        have : j.lineNo - (n + 1) = (j.lineNo - (n + 1 + 1)) + 1 := by omega
        rw [this, List.getElem?_cons_succ]
        exact h2
      · rintro ⟨x, h1, h2, h3, h4⟩
        refine ⟨x, h1, ?_, h3, h4⟩
        have : j.lineNo - (n + 1) = (j.lineNo - (n + 1 + 1)) + 1 := by omega
        rw [this, List.getElem?_cons_succ] at h2
        exact h2
    have hhead : ∀ x, (n + 1 ≤ j.lineNo ∧ (l :: rest)[j.lineNo - (n + 1)]? = some x ∧
        trimSpace x ≠ "" ∧ parseInt (trimSpace x) = some j.N) →
        (j.lineNo = n + 1 ∧ x = l) ∨ n + 1 + 1 ≤ j.lineNo := by
      rintro x ⟨h1, h2, _, _⟩
      by_cases hlt : n + 1 + 1 ≤ j.lineNo
      · exact Or.inr hlt
      · have : j.lineNo - (n + 1) = 0 := by omega
        rw [this] at h2
        simp only [List.getElem?_cons_zero, Option.some.injEq] at h2
        exact Or.inl ⟨by omega, h2.symm⟩
    unfold jobsFrom
    by_cases hb : trimSpace l = ""
    · simp only [hb, if_true]
      rw [hrec]
      constructor
      · rintro ⟨x, h1, h2, h3, h4⟩
        exact ⟨x, by omega, h2, h3, h4⟩
      · rintro ⟨x, h1, h2, h3, h4⟩
        rcases hhead x ⟨h1, h2, h3, h4⟩ with ⟨_, hx⟩ | hlt
        · rw [hx] at h3; exact absurd hb h3
        · exact ⟨x, hlt, h2, h3, h4⟩
    · simp only [hb, if_false]
      cases hp : parseInt (trimSpace l) with
      | none =>
        simp only
        rw [hrec]
        constructor
        · rintro ⟨x, h1, h2, h3, h4⟩
          exact ⟨x, by omega, h2, h3, h4⟩
        · rintro ⟨x, h1, h2, h3, h4⟩
          rcases hhead x ⟨h1, h2, h3, h4⟩ with ⟨_, hx⟩ | hlt
          · rw [hx, hp] at h4; cases h4
          · exact ⟨x, hlt, h2, h3, h4⟩
      | some v =>
        simp only [List.mem_cons]
        rw [hrec]
        constructor
        · rintro (hj | ⟨x, h1, h2, h3, h4⟩)
          · subst hj
            exact ⟨l, le_refl _, by simp, hb, hp⟩
          · exact ⟨x, by omega, h2, h3, h4⟩
        · rintro ⟨x, h1, h2, h3, h4⟩
          rcases hhead x ⟨h1, h2, h3, h4⟩ with ⟨hn, hx⟩ | hlt
          · left
            rw [hx, hp] at h4
            cases j
            simp only [Option.some.injEq] at h4
            simp only at hn
            simp only [job.mk.injEq]
            exact ⟨hn, h4.symm⟩
          · exact Or.inr ⟨x, hlt, h2, h3, h4⟩

theorem jobsFrom_lineNo_bounds (lines : List String) (n : Nat) (j : job)
    (h : j ∈ jobsFrom n lines) : n + 1 ≤ j.lineNo ∧ j.lineNo ≤ n + lines.length := by
  obtain ⟨l, h1, h2, _, _⟩ := (jobsFrom_mem_iff lines n j).mp h
  refine ⟨h1, ?_⟩
  have := (List.getElem?_eq_some_iff.mp h2).1
  omega

theorem jobsFrom_pairwise (lines : List String) :
    ∀ n, ((jobsFrom n lines).map (fun j => j.lineNo)).Pairwise (fun a b => a < b) := by
  induction lines with
  | nil => intro n; simp [jobsFrom]
  | cons l rest ih =>
    intro n
    unfold jobsFrom
    by_cases hb : trimSpace l = ""
    · simp only [hb, if_true]
      exact ih _
    · simp only [hb, if_false]
      cases parseInt (trimSpace l) with
      | none => exact ih _
      | some v =>
        simp only [List.map_cons, List.pairwise_cons]
        refine ⟨?_, ih _⟩
        intro a ha
        obtain ⟨j, hj, rfl⟩ := List.mem_map.mp ha
        have := (jobsFrom_lineNo_bounds rest (n + 1) j hj).1
        omega

theorem jobsFrom_length (lines : List String) (h : AllParse lines) :
    ∀ n, (jobsFrom n lines).length =
      (lines.filter (fun l => decide (trimSpace l ≠ ""))).length := by
  induction lines with
  | nil => intro n; rfl
  | cons l rest ih =>
    intro n
    have hrest : AllParse rest := fun x hx => h x (List.mem_cons_of_mem _ hx)
    unfold jobsFrom
    by_cases hb : trimSpace l = ""
    · simp only [hb, if_true, List.filter_cons, ne_eq, not_true_eq_false, decide_False,
        Bool.false_eq_true, if_false]
      exact ih hrest _
    · obtain ⟨v, hp, _⟩ := h l (List.mem_cons_self _ _) hb
      simp only [hb, if_false, hp, List.filter_cons, ne_eq, not_false_eq_true, decide_True,
        if_true, List.length_cons, ih hrest]

theorem jobsFrom_succ (lines : List String) :
    ∀ n, jobsFrom (n + 1) lines = (jobsFrom n lines).map bumpLine := by
  induction lines with
  | nil => intro n; rfl
  | cons l rest ih =>
    intro n
    unfold jobsFrom
    by_cases hb : trimSpace l = ""
    · simp only [hb, if_true]
      exact ih _
    · simp only [hb, if_false]
      cases parseInt (trimSpace l) with
      | none => exact ih _
      | some v => simp only [List.map_cons, ih, bumpLine]

theorem lineCount_blank (b : String) (hb : trimSpace b = "") : lineCount b = 0 := by
  unfold lineCount
  simp only [hb, if_true]

/-- Inserting a blank line leaves the jobs of the lines before it unchanged
and raises the line number of every later job by one. -/
theorem jobsFrom_insert_blank (pre suf : List String) (b : String) (hb : trimSpace b = "") :
    jobsFrom 0 (pre ++ b :: suf) =
      (jobsFrom 0 (pre ++ suf)).map
        (fun j => if j.lineNo ≤ pre.length then j else bumpLine j) ∧
    sumCounts (pre ++ b :: suf) = sumCounts (pre ++ suf) := by
  refine ⟨?_, ?_⟩
  · rw [jobsFrom_append, jobsFrom_append, List.map_append]
    congr 1
    · symm
      conv => rhs; rw [← List.map_id (jobsFrom 0 pre)]
      apply List.map_congr_left
      intro j hj
      have := (jobsFrom_lineNo_bounds pre 0 j hj).2
      simp only [Nat.zero_add] at this
      simp only [this, if_true, id]
    · have h1 : jobsFrom (0 + pre.length) (b :: suf) = jobsFrom (0 + pre.length + 1) suf := by
        conv => lhs; unfold jobsFrom
        simp only [hb, if_true]
      rw [h1, jobsFrom_succ]
      apply List.map_congr_left
      intro j hj
      have := (jobsFrom_lineNo_bounds suf _ j hj).1
      have hn : ¬ j.lineNo ≤ pre.length := by omega
      simp only [hn, if_false]
  · simp only [sumCounts, List.map_append, List.map_cons, List.sum_append, List.sum_cons,
      lineCount_blank b hb, zero_add]

theorem readLine_cases (n : Nat) (l : String) :
    (trimSpace l = "" ∧ readLine n l = LineAct.skip) ∨
    (trimSpace l ≠ "" ∧ ∃ o, readLine n l = LineAct.abort o) ∨
    (trimSpace l ≠ "" ∧ ∃ v, parseInt (trimSpace l) = some v ∧ 0 ≤ v ∧
      readLine n l = LineAct.submit { lineNo := n, N := v }) := by
  by_cases hb : trimSpace l = ""
  · exact Or.inl ⟨hb, readLine_blank n l hb⟩
  · right
    unfold readLine
    simp only [hb, if_false]
    cases hp : parseInt (trimSpace l) with
    | none => exact Or.inl ⟨hb, _, rfl⟩
    | some v =>
      simp only
      by_cases hr : v < 0 ∨ v > INF
      · rw [if_pos hr]
        exact Or.inl ⟨hb, _, rfl⟩
      · rw [if_neg hr]
        exact Or.inr ⟨hb, v, rfl, by omega, rfl⟩

/-- When the reader loop ends without a diagnostic, the jobs it has sent are
the jobs of the lines it scanned. -/
theorem readerLoop_ok_jobs (p : List String) :
    ∀ (n : Nat) (acc js : List job), readerLoop n acc p = Except.ok js →
      js = acc ++ jobsFrom n p := by
  induction p with
  | nil =>
    intro n acc js h
    simp only [readerLoop, Except.ok.injEq] at h
    simp [jobsFrom, h]
  | cons l p ih =>
    intro n acc js h
    unfold readerLoop at h
    unfold jobsFrom
    rcases readLine_cases (n + 1) l with ⟨hb, hs⟩ | ⟨hb, o, ho⟩ | ⟨hb, v, hp, _, hs⟩
    · simp only [hs] at h
      simp only [hb, if_true]
      exact ih _ _ _ h
    · simp only [ho] at h
      cases h
    · simp only [hs] at h
      simp only [hb, if_false, hp]
      rw [ih _ _ _ h]
      simp

/-- The jobs submitted so far are the jobs of the lines scanned so far. -/
theorem submitted_scanned (numWorkers : Nat) (lines : List String) (s : Pipeline)
    (hr : Reachable numWorkers lines s) :
    ∃ pre rest, lines = pre ++ rest ∧ readerLoop 0 [] pre = Except.ok s.submitted ∧
      s.submitted = jobsFrom 0 pre ∧
      (s.closed = true → AllParse lines → rest = []) := by
  have hinv := (inv_reachable numWorkers lines s hr).main_ok
  have key : ∀ pre rest, lines = pre ++ rest → readerLoop 0 [] pre = Except.ok s.submitted →
      (s.closed = true → AllParse lines → rest = []) →
      ∃ pre rest, lines = pre ++ rest ∧ readerLoop 0 [] pre = Except.ok s.submitted ∧
        s.submitted = jobsFrom 0 pre ∧ (s.closed = true → AllParse lines → rest = []) := by
    intro pre rest h1 h2 h3
    refine ⟨pre, rest, h1, h2, ?_, h3⟩
    simpa using readerLoop_ok_jobs pre 0 [] _ h2
  unfold MainOk at hinv
  cases hm : s.main with
  | reading rest lineNo sent =>
    rw [hm] at hinv
    simp only at hinv
    obtain ⟨hc, _, _, _, pre, h1, _, h2⟩ := hinv
    exact key pre rest h1 h2 (fun h => by rw [hc] at h; cases h)
  | aggregating i sent t =>
    rw [hm] at hinv
    simp only at hinv
    exact key lines [] (by simp) hinv.2.1 (fun _ _ => rfl)
  | exited o =>
    rw [hm] at hinv
    cases o with
    | total t =>
      simp only at hinv
      exact key lines [] (by simp) hinv.1 (fun _ _ => rfl)
    | infeasible ln =>
      simp only at hinv
      exact key lines [] (by simp) hinv.1 (fun _ _ => rfl)
    | invalidLine ln line =>
      simp only at hinv
      obtain ⟨herr, pre, l, rest, h1, h2, _⟩ := hinv
      refine key pre (l :: rest) h1 h2 (fun _ hp => ?_)
      rw [readerLoop_allParse lines hp] at herr
      cases herr
    | outOfRange ln v =>
      simp only at hinv
      obtain ⟨herr, pre, l, rest, h1, h2, _⟩ := hinv
      refine key pre (l :: rest) h1 h2 (fun _ hp => ?_)
      rw [readerLoop_allParse lines hp] at herr
      cases herr

theorem allParse_insert_blank (pre suf : List String) (b : String) (hb : trimSpace b = "")
    (h : AllParse (pre ++ suf)) : AllParse (pre ++ b :: suf) := by
  intro l hl hne
  rcases List.mem_append.mp hl with h1 | h1
  · exact h l (List.mem_append_left _ h1) hne
  · rcases List.mem_cons.mp h1 with h2 | h2
    · rw [h2] at hne; exact absurd hb hne
    · exact h l (List.mem_append_right _ h2) hne

theorem total_of_allParse (numWorkers : Nat) (lines : List String) (s : Pipeline) (t : Int)
    (hp : AllParse lines) (hr : Reachable numWorkers lines s)
    (hm : s.main = MainSt.exited (Outcome.total t)) : t = wrapInt (sumCounts lines) := by
  obtain ⟨js, h1, _, _, _, h3⟩ := exit_total numWorkers lines s t hr hm
  rw [readerLoop_allParse lines hp] at h1
  rw [h3, ← Except.ok.inj h1]
  simp only [List.nil_append, jobsFrom_counts]

/-- For every input whose non-blank lines all parse as non-negative
integers, the jobs of the reader loop are `jobsFrom 0 lines`:
exactly one job per line whose trimmed text is not empty, in file order (line
numbers increase), each carrying the 1-based physical index of its line and
the parsed value.  In every reachable state the jobs submitted so far are the
first jobs of that list, and all of them once `jobs` has been closed.  A
blank line inserted anywhere changes neither the number of jobs, nor their
targets, nor a printed total, only the line numbers of the jobs behind it,
each raised by one. -/
theorem reader_jobs (numWorkers : Nat) (lines : List String) (s : Pipeline)
    (hp : AllParse lines) (hr : Reachable numWorkers lines s) :
    readerLoop 0 [] lines = Except.ok (jobsFrom 0 lines) ∧
    (jobsFrom 0 lines).length = (lines.filter (fun l => decide (trimSpace l ≠ ""))).length ∧
    (∀ j, j ∈ jobsFrom 0 lines ↔
      ∃ l, 1 ≤ j.lineNo ∧ lines[j.lineNo - 1]? = some l ∧ trimSpace l ≠ "" ∧
        parseInt (trimSpace l) = some j.N) ∧
    ((jobsFrom 0 lines).map (fun j => j.lineNo)).Pairwise (fun a b => a < b) ∧
    s.submitted <+: jobsFrom 0 lines ∧
    (s.closed = true → s.submitted = jobsFrom 0 lines) ∧
    ∀ (pre suf : List String) (b : String), lines = pre ++ suf → trimSpace b = "" →
      jobsFrom 0 (pre ++ b :: suf) =
        (jobsFrom 0 lines).map (fun j => if j.lineNo ≤ pre.length then j else bumpLine j) ∧
      ∀ (w : Nat) (s' : Pipeline) (t t' : Int), Reachable w (pre ++ b :: suf) s' →
        s.main = MainSt.exited (Outcome.total t) →
        s'.main = MainSt.exited (Outcome.total t') → t = t' := by
  obtain ⟨pre0, rest0, hsplit, _, hsub, hclosed⟩ := submitted_scanned numWorkers lines s hr
  refine ⟨by simpa using readerLoop_allParse lines hp 0 [], jobsFrom_length lines hp 0,
    fun j => by simpa using jobsFrom_mem_iff lines 0 j, jobsFrom_pairwise lines 0,
    ?_, ?_, ?_⟩
  · rw [hsub, hsplit, jobsFrom_append]
    exact List.prefix_append _ _
  · intro hc
    have := hclosed hc hp
    rw [hsub, hsplit, this, List.append_nil]
  · intro pre suf b hl hb
    subst hl
    obtain ⟨h1, h2⟩ := jobsFrom_insert_blank pre suf b hb
    refine ⟨h1, ?_⟩
    intro w s' t t' hr' hm hm'
    rw [total_of_allParse numWorkers _ s t hp hr hm,
      total_of_allParse w _ s' t' (allParse_insert_blank pre suf b hb hp) hr' hm', h2]

theorem reader_jobs_witness :
    AllParse ["5", "", "16"] ∧
    readerLoop 0 [] ["5", "", "16"] = Except.ok (jobsFrom 0 ["5", "", "16"]) ∧
    jobsFrom 0 ["5", "", "16"] = [⟨1, 5⟩, ⟨3, 16⟩] :=
  have hp : AllParse ["5", "", "16"] := by
    intro l hl hb
    simp only [List.mem_cons, List.mem_singleton, List.not_mem_nil, or_false] at hl
    rcases hl with rfl | rfl | rfl
    · exact ⟨5, by decide, by decide⟩
    · exact absurd (by decide) hb
    · exact ⟨16, by decide, by decide⟩
  ⟨hp, (reader_jobs 1 ["5", "", "16"] (init 1 ["5", "", "16"]) hp
    Relation.ReflTransGen.refl).1, by decide⟩

/-- A line that parses to a negative value is rejected: the only line of
the input `-5` is not blank and parses (to -5), the reader loop ends with the
out-of-range diagnostic and no run, for any number of workers, ever submits a
job. -/
theorem reader_jobs_counterexample :
    (∀ l ∈ ["-5"], trimSpace l ≠ "" ∧ parseInt (trimSpace l) = some (-5)) ∧
    readerLoop 0 [] ["-5"] = Except.error (Outcome.outOfRange 1 (-5)) ∧
    ∀ (numWorkers : Nat) (s : Pipeline), Reachable numWorkers ["-5"] s →
      s.submitted = [] := by
  refine ⟨?_, rfl, ?_⟩
  · intro l hl
    rw [List.mem_singleton.mp hl]
    exact ⟨by decide, by decide⟩
  · intro numWorkers s hr
    obtain ⟨pre, rest, hsplit, hok, hsub, _⟩ := submitted_scanned numWorkers ["-5"] s hr
    cases pre with
    | nil => rw [hsub]; rfl
    | cons x xs =>
      simp only [List.cons_append, List.cons.injEq] at hsplit
      obtain ⟨hx, hrest⟩ := hsplit
      have hxs : xs = [] := (List.append_eq_nil.mp hrest.symm).1
      subst hxs
      rw [← hx] at hok
      have herr : readerLoop 0 [] ["-5"] = Except.error (Outcome.outOfRange 1 (-5)) :=
        rfl
      rw [herr] at hok
      cases hok

/-! ## What a run that ends reports -/

/-- On an input whose non-blank lines all parse as non-negative integers and
one of whose targets is infeasible, a run that ends prints no total: it ends
with the diagnostic of the physical line number of a line whose target is
infeasible. -/
theorem infeasible_exit (numWorkers : Nat) (lines : List String) (s : Pipeline) (o : Outcome)
    (hp : AllParse lines)
    (hinf : ∃ l ∈ lines, trimSpace l ≠ "" ∧
      ∃ n, parseInt (trimSpace l) = some n ∧ (minBoxesForN n).2 = false)
    (hr : Reachable numWorkers lines s) (hm : s.main = MainSt.exited o) :
    ∃ lineNo l n, o = Outcome.infeasible lineNo ∧ 1 ≤ lineNo ∧
      lines[lineNo - 1]? = some l ∧ trimSpace l ≠ "" ∧
      parseInt (trimSpace l) = some n ∧ (minBoxesForN n).2 = false := by
  have hread := readerLoop_allParse lines hp 0 []
  simp only [List.nil_append] at hread
  have hinv := (inv_reachable numWorkers lines s hr).main_ok
  unfold MainOk at hinv
  rw [hm] at hinv
  cases o with
  | total t =>
    exfalso
    obtain ⟨js, h1, hfeas, _, _, _⟩ := exit_total numWorkers lines s t hr hm
    rw [hread] at h1
    obtain ⟨l, hl, hb, n, hn, hbad⟩ := hinf
    obtain ⟨i, hi⟩ := List.getElem?_of_mem hl
    have hj : (⟨i + 1, n⟩ : job) ∈ jobsFrom 0 lines :=
      (jobsFrom_mem_iff lines 0 ⟨i + 1, n⟩).mpr ⟨l, by simp, by simpa using hi, hb, hn⟩
    rw [Except.ok.inj h1] at hj
    have := hfeas _ hj
    simp only at this
    rw [this] at hbad
    cases hbad
  | infeasible ln =>
    simp only at hinv
    obtain ⟨h1, j, hj, hln, hbad⟩ := hinv
    rw [hread] at h1
    rw [← Except.ok.inj h1] at hj
    obtain ⟨l, h2, h3, h4, h5⟩ := (jobsFrom_mem_iff lines 0 j).mp hj
    simp only [Nat.zero_add] at h2 h3
    refine ⟨ln, l, j.N, rfl, by omega, by rw [← hln]; exact h3, h4, h5, hbad⟩
  | invalidLine ln line =>
    simp only at hinv
    have h1 := hinv.1
    rw [hread] at h1
    cases h1
  | outOfRange ln v =>
    simp only at hinv
    have h1 := hinv.1
    rw [hread] at h1
    cases h1

theorem readerLoop_stops (pre suf : List String) (bad : String) (o : Outcome)
    (hpre : AllParse pre) (hbad : readLine (pre.length + 1) bad = LineAct.abort o) :
    readerLoop 0 [] (pre ++ bad :: suf) = Except.error o := by
  rw [readerLoop_append, readerLoop_allParse pre hpre]
  simp only [Nat.zero_add, readerLoop, hbad]

/-- On an input whose first line that the reader rejects is `bad`, at
position `pre.length + 1`, every job ever submitted is a job of the lines
before it, and a run that ends ends with the diagnostic of that line. -/
theorem invalid_exit (numWorkers : Nat) (pre suf : List String) (bad : String)
    (o' : Outcome) (s : Pipeline) (hpre : AllParse pre)
    (hbad : readLine (pre.length + 1) bad = LineAct.abort o')
    (hr : Reachable numWorkers (pre ++ bad :: suf) s) :
    s.submitted <+: jobsFrom 0 pre ∧ ∀ o, s.main = MainSt.exited o → o = o' := by
  have hstop := readerLoop_stops pre suf bad o' hpre hbad
  refine ⟨?_, ?_⟩
  · obtain ⟨pre0, rest0, hsplit, hok, hsub, _⟩ := submitted_scanned numWorkers _ s hr
    have h1 : pre0 <+: pre ++ bad :: suf := ⟨rest0, hsplit.symm⟩
    have h2 : pre <+: pre ++ bad :: suf := List.prefix_append _ _
    rcases List.prefix_or_prefix_of_prefix h1 h2 with h | h
    · obtain ⟨u, hu⟩ := h
      rw [hsub, ← hu, jobsFrom_append]
      exact List.prefix_append _ _
    · obtain ⟨u, hu⟩ := h
      cases u with
      | nil =>
        rw [List.append_nil] at hu
        rw [hsub, hu]
      | cons x u' =>
        exfalso
        rw [← hu, List.append_assoc] at hsplit
        have h3 := List.append_cancel_left hsplit
        simp only [List.cons_append, List.cons.injEq] at h3
        rw [← hu, ← h3.1] at hok
        have h4 := readerLoop_stops pre u' bad o' hpre hbad
        rw [h4] at hok
        cases hok
  · intro o hm
    have hinv := (inv_reachable numWorkers _ s hr).main_ok
    unfold MainOk at hinv
    rw [hm] at hinv
    cases o with
    | total t =>
      simp only at hinv
      have h1 := hinv.1
      rw [hstop] at h1
      cases h1
    | infeasible ln =>
      simp only at hinv
      have h1 := hinv.1
      rw [hstop] at h1
      cases h1
    | invalidLine ln line =>
      simp only at hinv
      have h1 := hinv.1
      rw [hstop] at h1
      exact (Except.error.inj h1).symm
    | outOfRange ln v =>
      simp only at hinv
      have h1 := hinv.1
      rw [hstop] at h1
      exact (Except.error.inj h1).symm

/-! ## Inputs that fit in the buffers run to the end -/

/-- A worker returns only after `jobs` was closed and found empty, and `jobs`
stays empty from then on. -/
theorem returned_inv (numWorkers : Nat) (lines : List String) (s : Pipeline)
    (hr : Reachable numWorkers lines s) :
    WorkerSt.returned ∈ s.workers → s.closed = true ∧ s.jobs = [] := by
  induction hr with
  | refl =>
    intro h
    simp only [init] at h
    cases List.eq_of_mem_replicate h
  | @tail s1 s2 hreach hstep ih =>
    have hinv := (inv_reachable numWorkers lines s1 hreach).main_ok
    cases hstep with
    | readSkip l rest lineNo sent js cl ws rs sub tk em co h => exact ih
    | readAbort l rest lineNo sent o js cl ws rs sub tk em co h => exact ih
    | readSubmit l rest lineNo sent j js cl ws rs sub tk em co h hroom =>
      intro hmem
      have hcl := (ih hmem).1
      simp only [MainOk] at hinv
      rw [hinv.1] at hcl
      cases hcl
    | closeJobs lineNo sent js cl ws rs sub tk em co =>
      intro hmem
      have hcl := (ih hmem).1
      simp only [MainOk] at hinv
      rw [hinv.1] at hcl
      cases hcl
    | workerTake m j js cl ws1 ws2 rs sub tk em co halive =>
      intro hmem
      have hmem' : WorkerSt.returned ∈ ws1 ++ WorkerSt.idle :: ws2 := by
        simp only [List.mem_append, List.mem_cons] at hmem ⊢
        rcases hmem with h | h | h
        · exact Or.inl h
        · cases h
        · exact Or.inr (Or.inr h)
      have := (ih hmem').2
      cases this
    | workerSend m r js cl ws1 ws2 rs sub tk em co halive hroom =>
      intro hmem
      have hmem' : WorkerSt.returned ∈ ws1 ++ WorkerSt.holding r :: ws2 := by
        simp only [List.mem_append, List.mem_cons] at hmem ⊢
        rcases hmem with h | h | h
        · exact Or.inl h
        · cases h
        · exact Or.inr (Or.inr h)
      exact ih hmem'
    | workerReturn m ws1 ws2 rs sub tk em co halive => exact fun _ => ⟨rfl, rfl⟩
    | aggAdd i sent t r js cl ws rs sub tk em co hi hok => exact ih
    | aggAbort i sent t r js cl ws rs sub tk em co hi hok => exact ih
    | aggDone i sent t js cl ws rs sub tk em co hi => exact ih

theorem held_ne_nil (ws : List WorkerSt) (h : held ws ≠ []) :
    ∃ r ws1 ws2, ws = ws1 ++ WorkerSt.holding r :: ws2 := by
  induction ws with
  | nil => exact absurd rfl h
  | cons w ws ih =>
    cases w with
    | holding r => exact ⟨r, [], ws, rfl⟩
    | idle =>
      obtain ⟨r, ws1, ws2, h'⟩ := ih (by simpa [held] using h)
      exact ⟨r, WorkerSt.idle :: ws1, ws2, by rw [h']; rfl⟩
    | returned =>
      obtain ⟨r, ws1, ws2, h'⟩ := ih (by simpa [held] using h)
      exact ⟨r, WorkerSt.returned :: ws1, ws2, by rw [h']; rfl⟩

theorem held_all (ws : List WorkerSt) (h1 : WorkerSt.idle ∉ ws)
    (h2 : WorkerSt.returned ∉ ws) : (held ws).length = ws.length := by
  induction ws with
  | nil => rfl
  | cons w ws ih =>
    have h1' : WorkerSt.idle ∉ ws := fun h => h1 (List.mem_cons_of_mem _ h)
    have h2' : WorkerSt.returned ∉ ws := fun h => h2 (List.mem_cons_of_mem _ h)
    cases w with
    | holding r => simp only [held, List.length_cons, ih h1' h2']
    | idle => exact absurd (List.mem_cons_self _ _) h1
    | returned => exact absurd (List.mem_cons_self _ _) h2

/-- With at least one worker, on an input with at most
`jobsCap + numWorkers + resultsCap` lines that parse, every reachable state
in which the main goroutine has not exited has an enabled step. -/
theorem pipeline_progress (numWorkers : Nat) (lines : List String) (s : Pipeline)
    (hw : 1 ≤ numWorkers)
    (hsmall : (jobsFrom 0 lines).length ≤ jobsCap + numWorkers + resultsCap)
    (hr : Reachable numWorkers lines s) (halive : ∀ o, s.main ≠ MainSt.exited o) :
    ∃ s', Step s s' := by
  have hinv := inv_reachable numWorkers lines s hr
  have hret := returned_inv numWorkers lines s hr
  obtain ⟨m, js, cl, ws, rs, sub, tk, em, co⟩ := s
  obtain ⟨h1, h2, h3, h4, h5, h6, h7⟩ := hinv
  simp only at h1 h2 h3 h4 h5 h6 hret halive
  have hlen := h3.length_eq
  have hsubl := congrArg List.length h1
  have heml := congrArg List.length h2
  simp only [List.length_append, List.length_map] at hlen hsubl heml
  have hsend : held ws ≠ [] → rs.length < resultsCap → ∃ s', Step
      ⟨m, js, cl, ws, rs, sub, tk, em, co⟩ s' := by
    intro hh hroom
    obtain ⟨r, ws1, ws2, hws⟩ := held_ne_nil ws hh
    subst hws
    exact ⟨_, Step.workerSend m r js cl ws1 ws2 rs sub tk em co halive hroom⟩
  have htake : WorkerSt.idle ∈ ws → js ≠ [] → ∃ s', Step
      ⟨m, js, cl, ws, rs, sub, tk, em, co⟩ s' := by
    intro hi hj
    obtain ⟨ws1, ws2, hws⟩ := List.append_of_mem hi
    subst hws
    cases js with
    | nil => exact absurd rfl hj
    | cons j js' =>
      exact ⟨_, Step.workerTake m j js' cl ws1 ws2 rs sub tk em co halive⟩
  cases m with
  | exited o => exact absurd rfl (halive o)
  | reading rest lineNo sent =>
    simp only [MainOk] at h7
    obtain ⟨m1, m2, m3, m4, pre, m5, m6, m7⟩ := h7
    cases rest with
    | nil => exact ⟨_, Step.closeJobs lineNo sent js cl ws rs sub tk em co⟩
    | cons l rest' =>
      rcases readLine_cases (lineNo + 1) l with ⟨_, hs⟩ | ⟨_, o, ho⟩ | ⟨hb, v, hp, _, hs⟩
      · exact ⟨_, Step.readSkip l rest' lineNo sent js cl ws rs sub tk em co hs⟩
      · exact ⟨_, Step.readAbort l rest' lineNo sent o js cl ws rs sub tk em co ho⟩
      · by_cases hroom : js.length < jobsCap
        · exact ⟨_, Step.readSubmit l rest' lineNo sent _ js cl ws rs sub tk em co hs hroom⟩
        · have hjs : js ≠ [] := by
            intro h
            rw [h] at hroom
            exact hroom (by decide)
          by_cases hidle : WorkerSt.idle ∈ ws
          · exact htake hidle hjs
          · have hnoret : WorkerSt.returned ∉ ws := by
              intro h
              have := (hret h).1
              rw [m1] at this
              cases this
            have hall := held_all ws hidle hnoret
            by_cases hroom' : rs.length < resultsCap
            · exact hsend (by
                intro h
                rw [h] at hall
                simp only [List.length_nil] at hall
                omega) hroom'
            · exfalso
              have hsubj : sub = jobsFrom 0 pre := by
                simpa using readerLoop_ok_jobs pre 0 [] sub m7
              have hcount : (jobsFrom 0 lines).length = sub.length +
                  (jobsFrom (0 + pre.length) (l :: rest')).length := by
                rw [m5, jobsFrom_append, List.length_append, hsubj]
              have hone : 1 ≤ (jobsFrom (0 + pre.length) (l :: rest')).length := by
                unfold jobsFrom
                simp only [hb, if_false, hp, List.length_cons]
                omega
              rw [m2] at heml
              simp only [List.length_nil] at heml
              omega
  | aggregating i sent t =>
    simp only [MainOk] at h7
    obtain ⟨m0, m1, m2, m3, m4, m5⟩ := h7
    by_cases hi : i < sent
    · cases rs with
      | cons r rs' =>
        cases hok : r.ok with
        | true => exact ⟨_, Step.aggAdd i sent t r js cl ws rs' sub tk em co hi hok⟩
        | false => exact ⟨_, Step.aggAbort i sent t r js cl ws rs' sub tk em co hi hok⟩
      | nil =>
        simp only [List.length_nil] at heml
        by_cases hh : held ws = []
        · have hjs : js ≠ [] := by
            intro h
            rw [h] at hsubl
            rw [hh] at hlen
            simp only [List.length_nil] at hsubl hlen
            omega
          by_cases hidle : WorkerSt.idle ∈ ws
          · exact htake hidle hjs
          · exfalso
            by_cases hretd : WorkerSt.returned ∈ ws
            · exact hjs (hret hretd).2
            · have hall := held_all ws hidle hretd
              rw [hh] at hall
              simp only [List.length_nil] at hall
              omega
        · exact hsend hh (by decide)
    · exact ⟨_, Step.aggDone i sent t js cl ws rs sub tk em co hi⟩

/-- With at least one worker, on an input with at most
`jobsCap + numWorkers + resultsCap` lines that parse, every run can be
continued to the exit of the main goroutine, and a run that cannot be
continued has reached it. -/
theorem small_input_ends (numWorkers : Nat) (lines : List String) (s : Pipeline)
    (hw : 1 ≤ numWorkers)
    (hsmall : (jobsFrom 0 lines).length ≤ jobsCap + numWorkers + resultsCap)
    (hr : Reachable numWorkers lines s) :
    ∃ s' o, Relation.ReflTransGen Step s s' ∧ s'.main = MainSt.exited o := by
  obtain ⟨s', hrun, hfin⟩ := exists_final _ s (le_refl _)
  have hr' : Reachable numWorkers lines s' := Relation.ReflTransGen.trans hr hrun
  by_contra hne
  have halive : ∀ o, s'.main ≠ MainSt.exited o := fun o ho => hne ⟨s', o, hrun, ho⟩
  obtain ⟨s'', hstep⟩ := pipeline_progress numWorkers lines s' hw hsmall hr' halive
  exact hfin s'' hstep

/-- With at least one worker, on an input with at most
`jobsCap + numWorkers + resultsCap` lines that parse, all of them to feasible
targets, every run can be continued to the end, and the end is the printed
total: the sum of the counts as a Go `int`. -/
theorem small_input_total (numWorkers : Nat) (lines : List String) (s : Pipeline)
    (hw : 1 ≤ numWorkers)
    (hsmall : (jobsFrom 0 lines).length ≤ jobsCap + numWorkers + resultsCap)
    (hf : AllFeasible lines) (hr : Reachable numWorkers lines s) :
    ∃ s', Relation.ReflTransGen Step s s' ∧
      s'.main = MainSt.exited (Outcome.total (wrapInt (sumCounts lines))) := by
  obtain ⟨s', o, hrun, hm⟩ := small_input_ends numWorkers lines s hw hsmall hr
  have hr' : Reachable numWorkers lines s' := Relation.ReflTransGen.trans hr hrun
  have ho := (allFeasible_exit numWorkers lines s' o hf hr' hm).1
  rw [ho] at hm
  exact ⟨s', hrun, hm⟩

theorem sumCounts_fives (k : Nat) : sumCounts (List.replicate k "5") = k := by
  have h1 : lineCount "5" = (minBoxesForN 5).1 :=
    lineCount_of_parse "5" 5 (by decide) (by decide)
  have h2 : (minBoxesForN 5).1 = 1 := by decide
  simp only [sumCounts, List.map_replicate, List.sum_replicate, h1, h2, nsmul_eq_mul,
    mul_one]

theorem allFeasible_blockingInput (numWorkers : Nat) :
    AllFeasible (blockingInput numWorkers) :=
  allFeasible_replicate _ "5" 5 (by decide) (by decide) (by decide)

/-- C3, at a failing input: with any number of workers, on the input of
`jobsCap + numWorkers + resultsCap + 1` lines `5` (every line parses to the
feasible target 5, so the total `jobsCap + numWorkers + resultsCap + 1` is
due) no run ever prints a total: the main goroutine never exits. -/
theorem total_never_printed (numWorkers : Nat) (s : Pipeline)
    (hr : Reachable numWorkers (blockingInput numWorkers) s) :
    AllFeasible (blockingInput numWorkers) ∧
    sumCounts (blockingInput numWorkers) = jobsCap + numWorkers + resultsCap + 1 ∧
    ∀ o, s.main ≠ MainSt.exited o := by
  refine ⟨allFeasible_blockingInput numWorkers, ?_, ?_⟩
  · rw [blockingInput, sumCounts_fives]
    push_cast
    rfl
  · intro o hm
    have hr' : Reachable numWorkers (blockingInput numWorkers ++ []) s := by
      rw [List.append_nil]; exact hr
    obtain ⟨rest, ln, hread, _⟩ := blocking_reading numWorkers [] s hr'
    rw [hread] at hm
    cases hm

theorem total_never_printed_witness :
    AllFeasible (blockingInput 8) ∧
    sumCounts (blockingInput 8) = jobsCap + 8 + resultsCap + 1 ∧
    ∀ o, (init 8 (blockingInput 8)).main ≠ MainSt.exited o :=
  total_never_printed 8 (init 8 (blockingInput 8)) Relation.ReflTransGen.refl

/-- C7, at a failing input: on the input of 8194 lines `5` the outcome
depends on the number of workers.  With one worker the main goroutine never
exits, so no total is printed; with two workers every run can be continued
to the end and the end is the printed total 8194. -/
theorem total_depends_on_workers :
    (blockingInput 1).length = 8194 ∧
    (∀ s, Reachable 1 (blockingInput 1) s → ∀ o, s.main ≠ MainSt.exited o) ∧
    (∀ s, Reachable 2 (blockingInput 1) s →
      ∃ s', Relation.ReflTransGen Step s s' ∧
        s'.main = MainSt.exited (Outcome.total 8194)) := by
  refine ⟨by rw [blockingInput, List.length_replicate]; decide, ?_, ?_⟩
  · intro s hr o hm
    have hr' : Reachable 1 (blockingInput 1 ++ []) s := by
      rw [List.append_nil]; exact hr
    obtain ⟨rest, ln, hread, _⟩ := blocking_reading 1 [] s hr'
    rw [hread] at hm
    cases hm
  · intro s hr
    have hsmall : (jobsFrom 0 (blockingInput 1)).length ≤ jobsCap + 2 + resultsCap := by
      rw [blockingInput, jobsFrom_fives]
      decide
    have hsum : wrapInt (sumCounts (blockingInput 1)) = 8194 := by
      rw [blockingInput, sumCounts_fives]
      decide
    have := small_input_total 2 (blockingInput 1) s (by decide) hsmall
      (allFeasible_blockingInput 1) hr
    rw [hsum] at this
    exact this

/-! ## Further properties of the solver -/

/-- C11: `minBoxesForN 0` returns `(0, true)`. -/
theorem minBoxesForN_at_zero : minBoxesForN 0 = (0, true) := by decide

/-- C12: for each `N` in `{1, 2, 3, 4}`, `minBoxesForN N` returns `ok = false`
(with `best` still `INF`): the target is reported infeasible, not rounded. -/
theorem minBoxesForN_small_infeasible :
    minBoxesForN 1 = (INF, false) ∧ minBoxesForN 2 = (INF, false) ∧
    minBoxesForN 3 = (INF, false) ∧ minBoxesForN 4 = (INF, false) := by decide

/-- C13: for every `N < 0`, `minBoxesForN N` returns `ok = false`. -/
theorem minBoxesForN_negative (N : Int) (h : N < 0) : (minBoxesForN N).2 = false := by
  unfold minBoxesForN
  rw [if_pos h]

theorem minBoxesForN_negative_witness : (minBoxesForN (-7)).2 = false :=
  minBoxesForN_negative (-7) (by decide)

/-- C15: for every remainder `R >= 0` the closed-form `c` lies in
`R/16 - 4 .. R/16`, is congruent to `R` modulo 5, and is the largest integer
up to `R/16` with that congruence; and `c >= 0` exactly when `R` is
`16 c' + 5 d'` for some non-negative `c'`, `d'`. -/
theorem closedC_largest (R : Int) (hR : 0 ≤ R) :
    (R / 16 - 4 ≤ closedC R ∧ closedC R ≤ R / 16) ∧
    (closedC R - R) % 5 = 0 ∧
    (∀ c' : Int, c' ≤ R / 16 → (c' - R) % 5 = 0 → c' ≤ closedC R) ∧
    (0 ≤ closedC R ↔ ∃ c' d' : Int, 0 ≤ c' ∧ 0 ≤ d' ∧ 16 * c' + 5 * d' = R) := by
  have hc := closedC_eq R hR
  refine ⟨⟨by omega, by omega⟩, by omega, fun c' h1 h2 => by omega, ?_⟩
  constructor
  · intro h0
    exact ⟨closedC R, (R - 16 * closedC R) / 5, h0, by omega, by omega⟩
  · rintro ⟨c', d', h1, h2, h3⟩
    have hge : c' ≤ closedC R := by omega
    omega

theorem closedC_largest_witness :
    (((37 : Int) / 16 - 4 ≤ closedC 37 ∧ closedC 37 ≤ 37 / 16) ∧
    (closedC 37 - 37) % 5 = 0 ∧
    (∀ c' : Int, c' ≤ 37 / 16 → (c' - 37) % 5 = 0 → c' ≤ closedC 37) ∧
    (0 ≤ closedC 37 ↔ ∃ c' d' : Int, 0 ≤ c' ∧ 0 ≤ d' ∧ 16 * c' + 5 * d' = 37)) :=
  closedC_largest 37 (by decide)

/-- C16: for every remainder `R >= 0` whose closed-form `c` is `>= 0`, with
`d = (R - 16c) / 5`, the pair `(c, d)` is a decomposition of `R` over 16 and
5 into non-negative counts (`0 <= c <= R/16`, `0 <= d`, `16c + 5d = R`) and
it has the fewest parts: `c + d <= c' + d'` for all non-negative `c'`, `d'`
with `16 c' + 5 d' = R`. -/
theorem closedC_minimal (R : Int) (hR : 0 ≤ R) (hc : 0 ≤ closedC R) :
    (0 ≤ closedC R ∧ closedC R ≤ R / 16) ∧
    0 ≤ Int.tdiv (R - 16 * closedC R) 5 ∧
    16 * closedC R + 5 * Int.tdiv (R - 16 * closedC R) 5 = R ∧
    ∀ c' d' : Int, 0 ≤ c' → 0 ≤ d' → 16 * c' + 5 * d' = R →
      closedC R + Int.tdiv (R - 16 * closedC R) 5 ≤ c' + d' := by
  have he := closedC_eq R hR
  have hrest : 0 ≤ R - 16 * closedC R := by omega
  rw [Int.tdiv_eq_ediv hrest (by decide)]
  refine ⟨⟨hc, by omega⟩, by omega, by omega, ?_⟩
  intro c' d' hc' hd' h
  have hge : c' ≤ closedC R := by omega
  omega

theorem closedC_minimal_witness :
    (0 ≤ closedC 64 ∧ closedC 64 ≤ 64 / 16) ∧
    0 ≤ Int.tdiv (64 - 16 * closedC 64) 5 ∧
    16 * closedC 64 + 5 * Int.tdiv (64 - 16 * closedC 64) 5 = 64 ∧
    ∀ c' d' : Int, 0 ≤ c' → 0 ≤ d' → 16 * c' + 5 * d' = 64 →
      closedC 64 + Int.tdiv (64 - 16 * closedC 64) 5 ≤ c' + d' :=
  closedC_minimal 64 (by decide) (by decide)

/-- C17: for every `N >= 0` and every pair `(a, b)` that the two loops
enumerate (`0 <= a <= N / 59`, `0 <= b <= (N - 59a) / 42`), the remainders
`R1 = N - 59a` and `R = R1 - 42b` are non-negative, so neither `break` fires;
and whenever the closed-form `c` is `>= 0`, `rest = R - 16c` is non-negative
and divisible by 5, so the defensive `continue` does not fire and
`d = rest / 5` is an exact non-negative quotient. -/
theorem defensive_branch_unreachable (N a b : Int) (hN : 0 ≤ N)
    (_ha : 0 ≤ a) (ha' : a ≤ Int.tdiv N 59)
    (_hb : 0 ≤ b) (hb' : b ≤ Int.tdiv (N - 59 * a) 42) :
    0 ≤ N - 59 * a ∧ 0 ≤ N - 59 * a - 42 * b ∧
    (0 ≤ closedC (N - 59 * a - 42 * b) →
      ¬ (N - 59 * a - 42 * b - 16 * closedC (N - 59 * a - 42 * b) < 0 ∨
          Int.tmod (N - 59 * a - 42 * b - 16 * closedC (N - 59 * a - 42 * b)) 5 ≠ 0) ∧
      0 ≤ Int.tdiv (N - 59 * a - 42 * b - 16 * closedC (N - 59 * a - 42 * b)) 5 ∧
      5 * Int.tdiv (N - 59 * a - 42 * b - 16 * closedC (N - 59 * a - 42 * b)) 5 =
        N - 59 * a - 42 * b - 16 * closedC (N - 59 * a - 42 * b)) := by
  rw [Int.tdiv_eq_ediv hN (by decide)] at ha'
  have hR1 : 0 ≤ N - 59 * a := by omega
  rw [Int.tdiv_eq_ediv hR1 (by decide)] at hb'
  have hR : 0 ≤ N - 59 * a - 42 * b := by omega
  refine ⟨hR1, hR, fun hc => ?_⟩
  have he := closedC_eq _ hR
  generalize closedC (N - 59 * a - 42 * b) = c at hc he ⊢
  generalize N - 59 * a - 42 * b = R at hR he ⊢
  have hrest : 0 ≤ R - 16 * c := by omega
  rw [Int.tmod_eq_emod hrest (by decide), Int.tdiv_eq_ediv hrest (by decide)]
  refine ⟨?_, by omega, by omega⟩
  rintro (h | h)
  · omega
  · exact h (by omega)

theorem defensive_branch_unreachable_witness :
    (0 : Int) ≤ 200 - 59 * 1 ∧ (0 : Int) ≤ 200 - 59 * 1 - 42 * 2 ∧
    (0 ≤ closedC (200 - 59 * 1 - 42 * 2) →
      ¬ (200 - 59 * 1 - 42 * 2 - 16 * closedC (200 - 59 * 1 - 42 * 2) < 0 ∨
          Int.tmod (200 - 59 * 1 - 42 * 2 - 16 * closedC (200 - 59 * 1 - 42 * 2)) 5 ≠ 0) ∧
      0 ≤ Int.tdiv (200 - 59 * 1 - 42 * 2 - 16 * closedC (200 - 59 * 1 - 42 * 2)) 5 ∧
      5 * Int.tdiv (200 - 59 * 1 - 42 * 2 - 16 * closedC (200 - 59 * 1 - 42 * 2)) 5 =
        200 - 59 * 1 - 42 * 2 - 16 * closedC (200 - 59 * 1 - 42 * 2)) :=
  defensive_branch_unreachable 200 1 2 (by decide) (by decide) (by decide) (by decide)
    (by decide)

theorem decomp_of_ge_55 (N : Int) (h : 55 ≤ N) : ∃ a b c d : Int, Decomp N a b c d := by
  by_cases h60 : 60 ≤ N
  · exact ⟨0, 0, N % 5, (N - 16 * (N % 5)) / 5, by decide, by decide, by omega, by omega,
      by omega⟩
  · have hcases : N = 55 ∨ N = 56 ∨ N = 57 ∨ N = 58 ∨ N = 59 := by omega
    rcases hcases with rfl | rfl | rfl | rfl | rfl
    · exact ⟨0, 0, 0, 11, by decide⟩
    · exact ⟨0, 0, 1, 8, by decide⟩
    · exact ⟨0, 1, 0, 3, by decide⟩
    · exact ⟨0, 0, 3, 2, by decide⟩
    · exact ⟨1, 0, 0, 0, by decide⟩

/-- C18: 54 is the largest infeasible target: `minBoxesForN 54` returns
`ok = false`, and for every `int` value `N >= 55` it returns `ok = true`. -/
theorem largest_infeasible (N : Int) (h : 55 ≤ N) (hN : N ≤ INF) :
    (minBoxesForN N).2 = true ∧ (minBoxesForN 54).2 = false := by
  obtain ⟨a, b, c, d, hd⟩ := decomp_of_ge_55 N h
  exact ⟨((minBoxesForN_char N (by omega) hN).2 a b c d hd).1, by decide⟩

theorem largest_infeasible_witness :
    (minBoxesForN 55).2 = true ∧ (minBoxesForN 54).2 = false :=
  largest_infeasible 55 (by decide) (by decide)

theorem count_subadditive (M N : Int) (hM : 0 ≤ M) (hN : 0 ≤ N) (hsum : M + N ≤ INF)
    (okM : (minBoxesForN M).2 = true) (okN : (minBoxesForN N).2 = true) :
    (minBoxesForN (M + N)).2 = true ∧
    (minBoxesForN (M + N)).1 ≤ (minBoxesForN M).1 + (minBoxesForN N).1 := by
  obtain ⟨a, b, c, d, ⟨ha, hb, hc, hd, hs⟩, hcnt⟩ :=
    (minBoxesForN_char M hM (by omega)).1 okM
  obtain ⟨a', b', c', d', ⟨ha', hb', hc', hd', hs'⟩, hcnt'⟩ :=
    (minBoxesForN_char N hN (by omega)).1 okN
  have hdec : Decomp (M + N) (a + a') (b + b') (c + c') (d + d') :=
    ⟨by omega, by omega, by omega, by omega, by omega⟩
  obtain ⟨h1, h2⟩ := (minBoxesForN_char (M + N) (by omega) hsum).2 _ _ _ _ hdec
  exact ⟨h1, by omega⟩

/-- C19: the solver's count is subadditive: for `int` values `M, N >= 0`
whose sum is an `int` and on which `minBoxesForN` reports `ok = true`,
`minBoxesForN (M + N)` reports `ok = true` with a count of at most the sum of
the two counts; in particular adding one denomination (5, 16, 42 or 59) to a
feasible target raises the count by at most 1. -/
theorem minBoxesForN_subadditive (M N : Int) (hM : 0 ≤ M) (hN : 0 ≤ N)
    (hsum : M + N ≤ INF)
    (okM : (minBoxesForN M).2 = true) (okN : (minBoxesForN N).2 = true) :
    ((minBoxesForN (M + N)).2 = true ∧
      (minBoxesForN (M + N)).1 ≤ (minBoxesForN M).1 + (minBoxesForN N).1) ∧
    ∀ s : Int, s = 5 ∨ s = 16 ∨ s = 42 ∨ s = 59 → M + s ≤ INF →
      (minBoxesForN (M + s)).2 = true ∧
      (minBoxesForN (M + s)).1 ≤ (minBoxesForN M).1 + 1 := by
  refine ⟨count_subadditive M N hM hN hsum okM okN, ?_⟩
  intro s hs hle
  have key : ∀ t : Int, 0 ≤ t → minBoxesForN t = (1, true) → M + t ≤ INF →
      (minBoxesForN (M + t)).2 = true ∧
      (minBoxesForN (M + t)).1 ≤ (minBoxesForN M).1 + 1 := by
    intro t ht heq hle'
    have := count_subadditive M t hM ht hle' okM (by rw [heq])
    rw [heq] at this
    exact this
  rcases hs with rfl | rfl | rfl | rfl
  · exact key 5 (by decide) (by decide) hle
  · exact key 16 (by decide) (by decide) hle
  · exact key 42 (by decide) (by decide) hle
  · exact key 59 (by decide) (by decide) hle

theorem minBoxesForN_subadditive_witness :
    ((minBoxesForN (64 + 42)).2 = true ∧
      (minBoxesForN (64 + 42)).1 ≤ (minBoxesForN 64).1 + (minBoxesForN 42).1) ∧
    ∀ s : Int, s = 5 ∨ s = 16 ∨ s = 42 ∨ s = 59 → 64 + s ≤ INF →
      (minBoxesForN (64 + s)).2 = true ∧
      (minBoxesForN (64 + s)).1 ≤ (minBoxesForN 64).1 + 1 :=
  minBoxesForN_subadditive 64 42 (by decide) (by decide) (by decide) (by decide) (by decide)

/-! ## The scenarios of the specification, results arriving in order -/

theorem scenario_A : runInOrder ["5", "16", "42", "59"] = Outcome.total 4 := by decide

theorem scenario_B : runInOrder ["64"] = Outcome.total 2 := by decide

theorem scenario_C : runInOrder ["3"] = Outcome.infeasible 1 := by decide

theorem scenario_D : runInOrder ["5", "", "3"] = Outcome.infeasible 3 := by decide

theorem scenario_E : runInOrder ["abc"] = Outcome.invalidLine 1 "abc" := by decide

end Stage1

/-! # The Vigenère tool -/

namespace Stage2

theorem tmod_adjust (z : Int) :
    (if Int.tmod z 26 < 0 then Int.tmod z 26 + 26 else Int.tmod z 26) = z % 26 := by
  rcases le_or_lt 0 z with h | h
  · rw [Int.tmod_eq_emod h (by decide)]
    have : ¬ z % 26 < 0 := by omega
    rw [if_neg this]
  · have h1 : Int.tmod z 26 = z - 26 * Int.tdiv z 26 := Int.tmod_def z 26
    have h2 : Int.tdiv z 26 = -((-z) / 26) := by
      have h3 : Int.tdiv (-z) 26 = (-z) / 26 := Int.tdiv_eq_ediv (by omega) (by decide)
      have h4 : Int.tdiv (-(-z)) 26 = -(Int.tdiv (-z) 26) := Int.neg_tdiv _ _
      rw [neg_neg] at h4
      rw [h4, h3]
    rw [h1, h2]
    split <;> omega

theorem lowerIndex_le (r : Char) (x : Nat) (h : lowerIndex r = some x) : x ≤ 25 := by
  unfold lowerIndex at h
  simp only at h
  split at h
  · cases h; omega
  · split at h
    · cases h; omega
    · split at h
      · cases h; omega
      · split at h
        · cases h; omega
        · cases h

theorem keyShifts_range (key : String) : ∀ s ∈ keyShifts key, 1 ≤ s ∧ s ≤ 26 := by
  intro s hs
  unfold keyShifts at hs
  obtain ⟨r, _, hr⟩ := List.mem_filterMap.mp hs
  cases hx : lowerIndex r with
  | none => rw [hx] at hr; cases hr
  | some x =>
    rw [hx] at hr
    simp only [Option.map_some', Option.some.injEq] at hr
    have := lowerIndex_le r x hx
    omega

theorem decryptLoop_length (shifts : List Int) :
    ∀ (rs : List Char) (k : Nat), (decryptLoop shifts k rs).length = rs.length := by
  intro rs
  induction rs with
  | nil => intro k; rfl
  | cons r rest ih =>
    intro k
    unfold decryptLoop
    cases lowerIndex r with
    | none => simp only [List.length_cons, ih]
    | some x => simp only [List.length_cons, ih]

theorem letterCount_cons (r : Char) (rs : List Char) :
    letterCount (r :: rs) = (if (lowerIndex r).isSome then 1 else 0) + letterCount rs := by
  unfold letterCount
  cases hb : (lowerIndex r).isSome
  · simp [List.filter_cons, hb]
  · simp [List.filter_cons, hb]
    omega

/-- The rune at position `p` of the output of the loop started at key index
`k`. -/
theorem decryptLoop_get (shifts : List Int) :
    ∀ (rs : List Char) (k p : Nat) (r : Char), rs[p]? = some r →
      (decryptLoop shifts k rs)[p]? = some
        (match lowerIndex r with
          | none => r
          | some x =>
            letterOf (((x : Int) -
              shifts.getD ((k + letterCount (rs.take p)) % shifts.length) 0) % 26)) := by
  intro rs
  induction rs with
  | nil => intro k p r h; simp at h
  | cons r0 rest ih =>
    intro k p r h
    cases p with
    | zero =>
      simp only [List.getElem?_cons_zero, Option.some.injEq] at h
      subst h
      unfold decryptLoop
      cases hx : lowerIndex r0 with
      | none => simp only [List.getElem?_cons_zero]
      | some x =>
        simp only [List.getElem?_cons_zero, List.take_zero, letterCount, List.filter_nil,
          List.length_nil, Nat.add_zero, tmod_adjust]
    | succ p =>
      simp only [List.getElem?_cons_succ] at h
      unfold decryptLoop
      cases hx : lowerIndex r0 with
      | none =>
        simp only [List.getElem?_cons_succ, List.take_succ_cons]
        rw [ih k p r h, letterCount_cons, hx]
        simp only [Option.isSome_none, Bool.false_eq_true, if_false, Nat.zero_add]
      | some x =>
        simp only [List.getElem?_cons_succ, List.take_succ_cons]
        rw [ih (k + 1) p r h, letterCount_cons, hx]
        simp only [Option.isSome_some, if_true]
        have : k + 1 + letterCount (List.take p rest) =
            k + (1 + letterCount (List.take p rest)) := by omega
        rw [this]

/-- C20, as amended: a letter of the key is a rune whose Unicode lowercase
form is in `a..z` (the ASCII letters, U+0130 and U+212A), its shift is the
1-based alphabet position of that form, in `1..26`, and other runes of the
key are ignored.  For a key without such a rune `decryptVigenere` returns the
empty string.  For every other key and every ciphertext the result has as
many runes as the ciphertext; a rune whose lowercase form is not in `a..z` is
copied at its position; and the rune at position `p` with lowercase letter
index `x`, the `i`-th such rune counting from 0, becomes the lowercase letter
of index `(x - s) mod 26`, where `s` is the shift number `i mod keylen`. -/
theorem decryptVigenere_spec (cipher key : String) :
    keyShifts key = (key.data.filterMap lowerIndex).map (fun (x : Nat) => (x : Int) + 1) ∧
    (∀ s ∈ keyShifts key, 1 ≤ s ∧ s ≤ 26) ∧
    (keyShifts key = [] → decryptVigenere cipher key = "") ∧
    (keyShifts key ≠ [] →
      (decryptVigenere cipher key).data.length = cipher.data.length ∧
      ∀ (p : Nat) (r : Char), cipher.data[p]? = some r →
        (decryptVigenere cipher key).data[p]? = some
          (match lowerIndex r with
            | none => r
            | some x =>
              letterOf (((x : Int) -
                (keyShifts key).getD
                  (letterCount (cipher.data.take p) % (keyShifts key).length) 0) % 26))) := by
  refine ⟨?_, keyShifts_range key, ?_, ?_⟩
  · unfold keyShifts
    rw [List.map_filterMap]
  · intro h
    unfold decryptVigenere
    simp only [h, List.length_nil, if_true]
  · intro h
    have hlen : ¬ (keyShifts key).length = 0 := fun h0 => h (List.length_eq_zero.mp h0)
    unfold decryptVigenere
    simp only [hlen, if_false]
    refine ⟨decryptLoop_length _ _ _, ?_⟩
    intro p r hr
    have := decryptLoop_get (keyShifts key) cipher.data 0 p r hr
    simpa only [Nat.zero_add] using this

/-- C20, counterexample: the key made of `a` and the Kelvin sign U+212A has
one letter `a..z/A..Z`, so the claim shifts every letter by 1 and maps the
second `b` of the ciphertext `bb` to the letter of index `(1 - 1) mod 26`,
`a`; the code has two shifts, 1 and 11, and writes `q`.  And the key made of
the Kelvin sign alone has no letter `a..z/A..Z`, yet the result for the
ciphertext `a` is `p`, not the empty string. -/
theorem decryptVigenere_counterexample :
    (asciiKeyShifts (String.mk ['a', Char.ofNat 8490]) = [1] ∧
      keyShifts (String.mk ['a', Char.ofNat 8490]) = [1, 11] ∧
      letterOf ((1 - 1) % 26) = 'a' ∧
      decryptVigenere "bb" (String.mk ['a', Char.ofNat 8490]) = "aq") ∧
    (asciiKeyShifts (String.mk [Char.ofNat 8490]) = [] ∧
      decryptVigenere "a" (String.mk [Char.ofNat 8490]) = "p") := by
  decide

/-- C14, at a failing input: with the result-count limit `topK = 0`, the
ciphertext `a` and the dictionary with the single key `a` (whose plaintext
`z` is not empty), `solveStage1` does not return a list: `pushCandidate`
reads `cands[0]` of the empty slice and the run panics, whatever the scores
are. -/
theorem solveStage1_topK_zero (scoreEnglish : String → ℚ) :
    decryptVigenere "a" "a" = "z" ∧
    solveStage1 scoreEnglish "a" ["a"] 0 =
      Except.error "index out of range [0] with length 0" := by
  refine ⟨by decide, ?_⟩
  have hp : decryptVigenere "a" "a" = "z" := by decide
  unfold solveStage1
  rw [if_neg (by decide)]
  unfold solveLoop
  simp only [hp]
  rw [if_neg (by decide)]
  unfold pushCandidate
  rw [if_neg (by decide)]

/-! ## The result of `solveStage1` for a positive limit -/

theorem sortAsc_perm (cs : List Candidate) : (sortAsc cs).Perm cs :=
  List.perm_insertionSort _ cs

theorem sortAsc_sorted (cs : List Candidate) :
    (sortAsc cs).Sorted (fun a b => a.Score ≤ b.Score) :=
  List.sorted_insertionSort _ cs

theorem pushCandidate_inv (topK : Int) (hK : 1 ≤ topK) (cands seen : List Candidate)
    (c : Candidate) (h : TopInv topK cands seen) :
    ∃ cands', pushCandidate topK cands c = Except.ok cands' ∧
      TopInv topK cands' (seen ++ [c]) := by
  obtain ⟨hsorted, hlen, rest, hperm, hfull, hbest⟩ := h
  unfold pushCandidate
  by_cases hroom : (cands.length : Int) < topK
  · rw [if_pos hroom]
    have hrest : rest = [] := by
      by_contra hne
      have := hfull hne
      omega
    subst hrest
    rw [List.append_nil] at hperm
    refine ⟨_, rfl, sortAsc_sorted _, ?_, [], ?_, fun h => absurd rfl h, ?_⟩
    · rw [(sortAsc_perm _).length_eq]
      simp only [List.length_append, List.length_singleton, Nat.cast_add, Nat.cast_one]
      omega
    · rw [List.append_nil]
      exact (sortAsc_perm _).trans (List.Perm.append_right _ hperm)
    · intro _ _ d hd
      cases hd
  · rw [if_neg hroom]
    cases cands with
    | nil =>
      simp only [List.length_nil, Nat.cast_zero] at hroom
      omega
    | cons c0 rest0 =>
      simp only
      have hmin : ∀ x ∈ rest0, c0.Score ≤ x.Score := List.rel_of_sorted_cons hsorted
      have hlen' : ((c0 :: rest0).length : Int) = topK := by omega
      by_cases hle : c.Score ≤ c0.Score
      · rw [if_pos hle]
        refine ⟨_, rfl, hsorted, hlen, c :: rest, ?_, fun _ => hlen', ?_⟩
        · have h1 : (c0 :: rest0 ++ c :: rest).Perm (c :: (c0 :: rest0 ++ rest)) :=
            List.perm_middle
          exact h1.trans ((List.Perm.cons c hperm).trans
            (List.perm_append_singleton c seen).symm)
        · intro x hx d hd
          rcases List.mem_cons.mp hd with rfl | hd
          · rcases List.mem_cons.mp hx with rfl | hx
            · exact hle
            · exact le_trans hle (hmin x hx)
          · exact hbest x hx d hd
      · rw [if_neg hle]
        have hlt : c0.Score ≤ c.Score := le_of_lt (not_le.mp hle)
        refine ⟨_, rfl, sortAsc_sorted _, ?_, c0 :: rest, ?_, ?_, ?_⟩
        · rw [(sortAsc_perm _).length_eq]
          simpa using hlen
        · have h1 : (sortAsc (c :: rest0) ++ c0 :: rest).Perm (c :: rest0 ++ c0 :: rest) :=
            List.Perm.append_right _ (sortAsc_perm _)
          have h2 : (rest0 ++ c0 :: rest).Perm (c0 :: rest0 ++ rest) := List.perm_middle
          exact h1.trans ((List.Perm.cons c (h2.trans hperm)).trans
            (List.perm_append_singleton c seen).symm)
        · intro _
          rw [(sortAsc_perm _).length_eq]
          simpa using hlen'
        · intro x hx d hd
          have hx' : x ∈ c :: rest0 := (sortAsc_perm _).mem_iff.mp hx
          have hc0x : c0.Score ≤ x.Score := by
            rcases List.mem_cons.mp hx' with rfl | hx'
            · exact hlt
            · exact hmin x hx'
          rcases List.mem_cons.mp hd with rfl | hd
          · exact hc0x
          · exact le_trans (hbest c0 (List.mem_cons_self _ _) d hd) hc0x

theorem solveLoop_inv (scoreEnglish : String → ℚ) (cipher : String) (topK : Int)
    (hK : 1 ≤ topK) :
    ∀ (dict : List String) (cands seen : List Candidate), TopInv topK cands seen →
      ∃ cands', solveLoop scoreEnglish cipher topK dict cands = Except.ok cands' ∧
        TopInv topK cands' (seen ++ allCandidates scoreEnglish cipher dict) := by
  intro dict
  induction dict with
  | nil =>
    intro cands seen h
    exact ⟨cands, rfl, by simpa [allCandidates] using h⟩
  | cons key dict ih =>
    intro cands seen h
    unfold solveLoop
    by_cases hp : decryptVigenere cipher key = ""
    · simp only [hp, if_true]
      obtain ⟨cands', h1, h2⟩ := ih cands seen h
      refine ⟨cands', h1, ?_⟩
      simpa [allCandidates, hp] using h2
    · simp only [hp, if_false]
      obtain ⟨c1, hc1, hinv1⟩ := pushCandidate_inv topK hK cands seen
        { Key := key, Plain := decryptVigenere cipher key,
          Score := scoreEnglish (decryptVigenere cipher key) } h
      rw [hc1]
      obtain ⟨cands', h1, h2⟩ := ih c1 _ hinv1
      refine ⟨cands', h1, ?_⟩
      simpa [allCandidates, hp] using h2

/-- For every ciphertext, dictionary and limit `topK >= 1` that `make`
accepts as a capacity, `solveStage1` returns a list of at most `topK` candidates in order of non-increasing score;
each is a dictionary key with its non-empty plaintext and the score of that
plaintext; and the list holds the best candidates: together with the
candidates left out it is a rearrangement of all candidates, every candidate
left out scores no higher than any candidate returned, and none is left out
unless `topK` candidates are returned. -/
theorem solveStage1_topK_pos (scoreEnglish : String → ℚ) (cipher : String)
    (dict : List String) (topK : Int) (hK : 1 ≤ topK) (hmax : topK ≤ maxCandidates) :
    ∃ cands, solveStage1 scoreEnglish cipher dict topK = Except.ok cands ∧
      (cands.length : Int) ≤ topK ∧
      cands.Sorted (fun a b => a.Score ≥ b.Score) ∧
      (∀ c ∈ cands, c.Key ∈ dict ∧ c.Plain = decryptVigenere cipher c.Key ∧
        c.Plain ≠ "" ∧ c.Score = scoreEnglish c.Plain) ∧
      ∃ rest, (cands ++ rest).Perm (allCandidates scoreEnglish cipher dict) ∧
        (rest ≠ [] → (cands.length : Int) = topK) ∧
        ∀ c ∈ cands, ∀ d ∈ rest, d.Score ≤ c.Score := by
  have hinit : TopInv topK [] [] :=
    ⟨List.sorted_nil, by simp only [List.length_nil, Nat.cast_zero]; omega, [],
      List.Perm.refl _, fun h => absurd rfl h, fun _ h => by cases h⟩
  obtain ⟨cands, hrun, _, hlen, rest, hperm, hfull, hbest⟩ :=
    solveLoop_inv scoreEnglish cipher topK hK dict [] [] hinit
  rw [List.nil_append] at hperm
  have hsp : (sortDesc cands).Perm cands := List.perm_insertionSort _ cands
  refine ⟨sortDesc cands, ?_, ?_, List.sorted_insertionSort _ cands, ?_, rest, ?_, ?_, ?_⟩
  · unfold solveStage1
    rw [if_neg (by omega), hrun]
  · rw [hsp.length_eq]
    exact hlen
  · intro c hc
    have hmem : c ∈ allCandidates scoreEnglish cipher dict :=
      hperm.mem_iff.mp (List.mem_append_left _ (hsp.mem_iff.mp hc))
    unfold allCandidates at hmem
    obtain ⟨key, hkey, hsome⟩ := List.mem_filterMap.mp hmem
    by_cases hp : decryptVigenere cipher key = ""
    · simp only [hp, if_true] at hsome
      cases hsome
    · simp only [hp, if_false, Option.some.injEq] at hsome
      subst hsome
      exact ⟨hkey, rfl, hp, rfl⟩
  · exact (List.Perm.append_right _ hsp).trans hperm
  · intro h
    rw [hsp.length_eq]
    exact hfull h
  · intro c hc d hd
    exact hbest c (hsp.mem_iff.mp hc) d hd

end Stage2
